import Mathlib

/-!
Verification development for the DocLayout export pipeline.

This file gives a shallow embedding of the layout/export core of the
DocLayout repository and proves properties of it:

* `doclayout/core/models.py` — the data model (`BaseElement`, blocks,
  templates).  Geometry is embedded as exact rationals (`Rat`): the Python
  code uses floats, but every claim under study is about the exact
  arithmetic relationships, so rationals are the faithful idealisation.
* `doclayout/engine/layout.py` — `LayoutEngine` (flattening, block
  resolution, `\x7b\x7bkey\x7d\x7d` substitution, global bindings).
* `doclayout/engine/export.py` — `TemplateExporter` (dynamic sizing,
  pagination with table/text-box splitting, thermal-paper mode).

Python strings are embedded as `List Char`; Python dicts (`props`, block
providers, data maps) as association lists with first-match lookup and
in-place update, which matches dict get/set semantics (keys are unique in
all states the engine produces).  Functions that the Python code writes
through object references are embedded in state-passing style: they return
the post-call state of every argument they could reach, so that in-place
mutation (or its absence, via `copy.deepcopy`) is visible in the model.

Text measurement (`reportlab.pdfbase.pdfmetrics.stringWidth`) is a
third-party callable outside this repository; it is abstracted as a
character-width function per font specification, `cw : FontSpec → Char →
Rat`, with string width the sum of character widths — exactly the
additive-advance-width model stringWidth implements.  The word-wrap
routine `reportlab.lib.utils.simpleSplit` is likewise outside the
repository; `wrapLoop` below is modelled from the spec's description of
it (greedy accumulation of words onto a line while the measured width
fits; an over-wide single word is placed alone, never truncated).

The placeholder regex of `layout.py` uses the classes `\w` and `\s` of
the `re` module, which for `str` patterns are the full Unicode word and
whitespace classes; they are abstracted the same way, as class
parameters `isW isS : Char → Bool` of the matcher and of everything
built on it, with the ASCII restrictions (`asciiWordChar`,
`asciiRESpace`) kept as concrete instances for witnesses.

Loops of `_paginate_elements` that re-inject the remaining part of a
split element are not structurally terminating (and for some inputs the
real code does not terminate), so they are embedded with an explicit
fuel parameter; `none` means the fuel was exhausted.
-/

/-- Python `int(x)` truncates toward zero. -/
def pyInt (q : Rat) : Int := if 0 ≤ q then Int.floor q else Int.ceil q

/-- Python list slice `l[:k]`, including the negative-index convention. -/
def pySliceTo {α : Type} (k : Int) (l : List α) : List α :=
  if 0 ≤ k then l.take k.toNat else l.take (l.length - (-k).toNat)

/-- Python list slice `l[k:]`, including the negative-index convention. -/
def pySliceFrom {α : Type} (k : Int) (l : List α) : List α :=
  if 0 ≤ k then l.drop k.toNat else l.drop (l.length - (-k).toNat)

/-- from `doclayout/core/geometry.py`: `MM_TO_PT = 2.83465`, `mm_to_pt`. -/
def mm_to_pt (mm : Rat) : Rat := mm * 2.83465

/-- Helper for `text.split(sep)`: first segment and remaining segments. -/
def splitSegsAux (c : Char) : List Char → List Char × List (List Char)
  | [] => ([], [])
  | x :: xs =>
    let r := splitSegsAux c xs
    if x = c then ([], r.1 :: r.2) else (x :: r.1, r.2)

/-- Python `text.split(sep)` for a one-character separator: always returns
at least one (possibly empty) segment, and keeps empty segments. -/
def splitSegs (c : Char) (s : List Char) : List (List Char) :=
  (splitSegsAux c s).1 :: (splitSegsAux c s).2

/-- Python `sep.join(segments)` for a one-character separator. -/
def joinSegs (c : Char) : List (List Char) → List Char
  | [] => []
  | [l] => l
  | l :: ls => l ++ c :: joinSegs c ls

/-- Word splitting used by the wrap algorithm: split on spaces and drop
empty pieces (Python `str.split()` semantics, with the space character as
the inter-word whitespace). -/
def wordsOf (p : List Char) : List (List Char) :=
  (splitSegs ' ' p).filter (fun w => w ≠ [])

/-- Font selection data handed to the measurement provider: the
`font_family` / `font_bold` / `font_italic` / `font_size` properties that
`export.py` passes to `FontHelper.resolve` and `stringWidth`. -/
structure FontSpec where
  family : List Char
  bold : Bool
  italic : Bool
  size : Rat
deriving DecidableEq

/-- Width of a string as `stringWidth` computes it: the sum of the
character advance widths for the resolved font. -/
def measureW (cw : Char → Rat) (s : List Char) : Rat := (s.map cw).sum

/-- Modelled from the spec: `reportlab.lib.utils.simpleSplit` (not part of
this repository) — greedy word wrap.  A run of words accumulates onto the
current line while the measured width stays within `max_width`; a single
word wider than the line is still placed alone, never truncated. -/
def wrapLoop (cw : Char → Rat) (max_width : Rat) : List Char → List (List Char) → List (List Char)
  | cur, [] => if cur = [] then [] else [cur]
  | cur, w :: ws =>
    let test := if cur = [] then w else cur ++ ' ' :: w
    if measureW cw test ≤ max_width then wrapLoop cw max_width test ws
    else if cur = [] then wrapLoop cw max_width w ws
    else cur :: wrapLoop cw max_width w ws

/-- Modelled from the spec: `simpleSplit` applied to one paragraph. -/
def simpleSplitW (cw : Char → Rat) (max_width : Rat) (p : List Char) : List (List Char) :=
  wrapLoop cw max_width [] (wordsOf p)

/-- Line computation of `export.py` (`_paginate_elements` lines 123–129 and
`_split_textbox` lines 292–298): split the text on hard line breaks, keep
empty paragraphs as blank lines, and word-wrap each nonempty paragraph. -/
def wrapLines (cw : Char → Rat) (max_width : Rat) (text : List Char) : List (List Char) :=
  ((splitSegs '\n' text).map (fun p => if p = [] then [[]] else simpleSplitW cw max_width p)).flatten

/-- from `export.py` line 105 / 275: `line_height_mm = font_size * 1.2 / 2.83465`. -/
def lineHeightMM (font_size : Rat) : Rat := font_size * 1.2 / 2.83465

/-- Property values stored in the free-form `props` dict of an element
(`Dict[str, Any]` in `models.py`): strings, numbers, booleans, or a table
row matrix. -/
inductive PropValue where
  | str (s : List Char)
  | num (q : Rat)
  | boolean (b : Bool)
  | rows (r : List (List (List Char)))
deriving DecidableEq

/-- The `props` dict of an element: string-keyed association list. -/
abbrev Props := List (String × PropValue)

/-- Python `props.get(k)`: first matching key. -/
def Props.get? (p : Props) (k : String) : Option PropValue :=
  match p with
  | [] => none
  | (k', v) :: rest => if k' = k then some v else Props.get? rest k

/-- Python `k in props`. -/
def Props.hasKey (p : Props) (k : String) : Bool := (p.get? k).isSome

/-- Python `props[k] = v`: replace in place if the key exists, else append. -/
def Props.set (p : Props) (k : String) (v : PropValue) : Props :=
  match p with
  | [] => [(k, v)]
  | (k', v') :: rest => if k' = k then (k', v) :: rest else (k', v') :: Props.set rest k v

/-- Python `props.get(k, default)` where the call site uses the value as a
number. -/
def Props.getNum (p : Props) (k : String) (d : Rat) : Rat :=
  match p.get? k with
  | some (.num q) => q
  | _ => d

/-- Python `props.get(k, default)` where the call site uses the value as a
string. -/
def Props.getStr (p : Props) (k : String) (d : List Char) : List Char :=
  match p.get? k with
  | some (.str s) => s
  | _ => d

/-- Python `props.get(k, default)` where the call site uses the value as a
boolean. -/
def Props.getBool (p : Props) (k : String) (d : Bool) : Bool :=
  match p.get? k with
  | some (.boolean b) => b
  | _ => d

/-- Python `props.get("data", [])` for the table row matrix. -/
def Props.getRows (p : Props) (k : String) : List (List (List Char)) :=
  match p.get? k with
  | some (.rows r) => r
  | _ => []

/-- from `models.py` `ElementType`.  The `text_box` member is referenced
throughout `export.py` and the editor (`ElementType.TEXT_BOX`) but its
declaration is not among the provided sources; modelled from the spec,
which lists TextBox among the element kinds. -/
inductive ElementType where
  | rect
  | text
  | text_box
  | line
  | image
  | kv_box
  | container
  | table
deriving DecidableEq

/-- from `models.py` `VariableBinding`. -/
structure VariableBinding where
  variable_name : String
  target_property : String
deriving DecidableEq

/-- from `models.py` `BaseElement`, without the `children` field: the
hierarchy is carried by `ElementNode` below, and the flat elements the
engine produces have empty children. -/
structure BaseElement where
  id : String
  type : ElementType
  x : Rat
  y : Rat
  width : Rat
  height : Rat
  props : Props
  bindings : List VariableBinding
  name : Option String
deriving DecidableEq

/-- A `BaseElement` together with its `children` list (the recursive part
of `models.py` `BaseElement`). -/
inductive ElementNode where
  | node (data : BaseElement) (children : List ElementNode)

/-- from `models.py` `BlockInstance`.  The `data` map is used for
`\x7b\x7bkey\x7d\x7d` substitution; keys and values are strings. -/
structure BlockInstance where
  id : String
  block_id : String
  x : Rat
  y : Rat
  data : List (List Char × List Char)
deriving DecidableEq

/-- from `models.py` `BlockBase`. -/
structure BlockBase where
  id : String
  block_name : String
  width : Rat
  height : Rat
  elements : List ElementNode

/-- A top-level item of a template: `Union[BaseElement, BlockInstance]`. -/
inductive TemplateItem where
  | elem (e : ElementNode)
  | block (b : BlockInstance)

/-- from `models.py` `PageSize`. -/
structure PageSize where
  width : Rat
  height : Rat
deriving DecidableEq

/-- Modelled from the spec: the template settings object; `export.py` line
61 reads `template.settings.page_top_margin_mm` and the spec describes
"settings (top margin for continuation pages, mm)", but the `settings`
field declaration is not among the provided sources. -/
structure TemplateSettings where
  page_top_margin_mm : Rat
deriving DecidableEq

/-- from `models.py` `Template`.  The `variables` map is read by
`layout.py` line 47 (`template.variables`) but its declaration is not
among the provided sources; modelled from the spec's "single global
variable map shared by the whole template". -/
structure Template where
  id : String
  template_name : String
  page_size : PageSize
  settings : TemplateSettings
  items : List TemplateItem
  global_variables : List (String × PropValue)

/-- Lookup in the global variable map (Python `name in variables` /
`variables[name]`). -/
def lookupVar (vars : List (String × PropValue)) (k : String) : Option PropValue :=
  match vars with
  | [] => none
  | (k', v) :: rest => if k' = k then some v else lookupVar rest k

/-- Lookup in a block instance's data map (Python `data.get(key, ...)`). -/
def lookupData (data : List (List Char × List Char)) (k : List Char) : Option (List Char) :=
  match data with
  | [] => none
  | (k', v) :: rest => if k' = k then some v else lookupData rest k

/-- Lookup in the block provider (Python `self.block_provider.get(block_id)`). -/
def lookupBlock (bp : List (String × BlockBase)) (k : String) : Option BlockBase :=
  match bp with
  | [] => none
  | (k', v) :: rest => if k' = k then some v else lookupBlock rest k

/-- The ASCII restriction of Python's `\w` word class.  `re`'s `\w` on a
`str` pattern matches every *Unicode* word character, so the matcher
below abstracts the class as a parameter `isW : Char → Bool` (exactly as
the font metric is abstracted by `cw`); this definition agrees with `\w`
on ASCII text and serves only as a concrete instance for witnesses. -/
def asciiWordChar (c : Char) : Bool := c.isAlphanum || c = '_'

/-- The ASCII restriction of Python's `\s` whitespace class (the six
ASCII whitespace characters).  `re`'s `\s` on a `str` pattern also
matches Unicode whitespace such as U+00A0, so the matcher abstracts the
class as a parameter `isS : Char → Bool`; this definition agrees with
`\s` on ASCII text and serves only as a concrete instance for
witnesses. -/
def asciiRESpace (c : Char) : Bool :=
  c = ' ' || c = '\t' || c = '\n' || c = '\r' || c = '\x0b' || c = '\x0c'

/-- Matcher for the regex of `layout.py` line 119 at the start of the
input, parameterised by the word class `isW` (Python `\w`) and the
whitespace class `isS` (Python `\s`) — for `str` patterns these are the
full Unicode classes, abstracted here the way the font metric is
abstracted by `cw`.  The pattern is two open braces, optional whitespace,
at least one word character, optional whitespace, two close braces;
since the whitespace and word classes are disjoint and disjoint from the
brace, the regex match at a position is exactly this greedy scan.  On
success returns (leading whitespace, key, trailing whitespace, rest of
input). -/
def tryMatch (isW isS : Char → Bool) :
    List Char → Option (List Char × List Char × List Char × List Char)
  | c1 :: c2 :: t =>
    if c1 = '{' ∧ c2 = '{' then
      let s1 := t.span isS
      let s2 := s1.2.span isW
      if s2.1 = [] then none
      else
        let s3 := s2.2.span isS
        match s3.2 with
        | d1 :: d2 :: rest =>
          if d1 = '}' ∧ d2 = '}' then some (s1.1, s2.1, s3.1, rest) else none
        | _ => none
    else none
  | _ => none

/-- Scanning loop of `re.sub` for the placeholder pattern: find
non-overlapping leftmost matches and replace each via the replacer of
`layout.py` lines 121–123 (`data.get(key)` if present, else the
normalised placeholder re-built as braces + key + braces).  `re.sub`'s
scan always advances, so the recursion is bounded by the input length;
the fuel equals the length at the top-level call and is never exhausted
(the `0` case below is unreachable then). -/
def substGo (isW isS : Char → Bool) (data : List (List Char × List Char)) :
    Nat → List Char → List Char
  | _, [] => []
  | 0, s => s
  | fuel + 1, c :: cs =>
    match tryMatch isW isS (c :: cs) with
    | some (_, key, _, rest) =>
      (match lookupData data key with
       | some v => v
       | none => '{' :: '{' :: (key ++ '}' :: '}' :: [])) ++ substGo isW isS data fuel rest
    | none => c :: substGo isW isS data fuel cs

/-- from `layout.py` `_substitute_text` lines 117–125: the `pattern.sub`
call on a text. -/
def substituteText (isW isS : Char → Bool) (data : List (List Char × List Char))
    (s : List Char) : List Char :=
  substGo isW isS data s.length s

/-- from `layout.py` `_substitute_text`: leave the element alone when it
has no text, else rewrite its `text` property. -/
def substituteTextElem (isW isS : Char → Bool) (data : List (List Char × List Char))
    (e : BaseElement) : BaseElement :=
  let text_content := e.props.getStr "text" []
  if text_content = [] then e
  else { e with props := e.props.set "text" (.str (substituteText isW isS data text_content)) }

mutual

/-- from `layout.py` `_flatten_tree` lines 82–105, in state-passing style:
the second component is the emitted flat list (pre-order, absolute
coordinates, children cleared); the first component is the post-call state
of the input node — the code only mutates `flat_elem`, a deep copy, so the
input subtree is rebuilt from the post-states of its children. -/
def flattenTree : ElementNode → Rat → Rat → ElementNode × List BaseElement
  | .node d cs, offset_x, offset_y =>
    let abs_x := offset_x + d.x
    let abs_y := offset_y + d.y
    let flat : BaseElement := { d with x := abs_x, y := abs_y }
    let csr := flattenChildren cs abs_x abs_y
    (.node d csr.1, flat :: csr.2)

/-- The `for child in element.children` loop of `_flatten_tree`. -/
def flattenChildren : List ElementNode → Rat → Rat → List ElementNode × List BaseElement
  | [], _, _ => ([], [])
  | c :: cs, ox, oy =>
    let r1 := flattenTree c ox oy
    let r2 := flattenChildren cs ox oy
    (r1.1 :: r2.1, r1.2 ++ r2.2)

end

/-- from `layout.py` `_resolve_block` lines 59–80, in state-passing style:
returns the post-call state of the block definition's element list and
the resolved flat elements.  Substitution applies to `TEXT` elements of
the flattened copies only. -/
def resolveBlockElems (isW isS : Char → Bool) (inst : BlockInstance) :
    List ElementNode → List ElementNode × List BaseElement
  | [] => ([], [])
  | en :: rest =>
    let r := flattenTree en inst.x inst.y
    let flats := r.2.map (fun flat =>
      if flat.type = ElementType.text then substituteTextElem isW isS inst.data flat else flat)
    let rr := resolveBlockElems isW isS inst rest
    (r.1 :: rr.1, flats ++ rr.2)

/-- Update of the block-provider dict entry whose elements the call could
have mutated (the entry `lookupBlock` found: the first one with the key). -/
def setBlockElements (bp : List (String × BlockBase)) (k : String) (els : List ElementNode) :
    List (String × BlockBase) :=
  match bp with
  | [] => []
  | (k', b) :: rest =>
    if k' = k then (k', { b with elements := els }) :: rest
    else (k', b) :: setBlockElements rest k els

/-- Post-call state of the block provider after `_resolve_block`: the
looked-up block's elements are replaced by their post-states. -/
def resolveBlockSt (isW isS : Char → Bool) (bp : List (String × BlockBase))
    (inst : BlockInstance) : List (String × BlockBase) × List BaseElement :=
  match lookupBlock bp inst.block_id with
  | none => (bp, [])
  | some bd =>
    let r := resolveBlockElems isW isS inst bd.elements
    (setBlockElements bp inst.block_id r.1, r.2)

/-- from `layout.py` `apply_bindings` lines 52–57, for one element: for
every binding whose variable exists in the global map, overwrite the
target property. -/
def applyBindingsOne (vars : List (String × PropValue)) (e : BaseElement) : BaseElement :=
  e.bindings.foldl
    (fun acc b =>
      match lookupVar vars b.variable_name with
      | some v => { acc with props := acc.props.set b.target_property v }
      | none => acc)
    e

/-- The `for elem in elements` loop of `apply_bindings`. -/
def applyBindings (vars : List (String × PropValue)) (es : List BaseElement) : List BaseElement :=
  es.map (applyBindingsOne vars)

/-- The `for item in template.items` loop of `LayoutEngine.compile`, in
state-passing style (threading the block-provider state). -/
def compileItems (isW isS : Char → Bool) (bp : List (String × BlockBase)) :
    List TemplateItem → List (String × BlockBase) × List TemplateItem × List BaseElement
  | [] => (bp, [], [])
  | .block b :: rest =>
    let r := resolveBlockSt isW isS bp b
    let rr := compileItems isW isS r.1 rest
    (rr.1, .block b :: rr.2.1, r.2 ++ rr.2.2)
  | .elem en :: rest =>
    let r := flattenTree en 0 0
    let rr := compileItems isW isS bp rest
    (rr.1, .elem r.1 :: rr.2.1, r.2 ++ rr.2.2)

/-- from `layout.py` `LayoutEngine.compile` lines 23–50, in state-passing
style: returns (post block provider, post template, flat elements). -/
def compileSt (isW isS : Char → Bool) (bp : List (String × BlockBase)) (t : Template) :
    List (String × BlockBase) × Template × List BaseElement :=
  let r := compileItems isW isS bp t.items
  let out := applyBindings t.global_variables r.2.2
  (r.1, { t with items := r.2.1 }, out)

/-- from `export.py` `_split_table` lines 212–249. -/
def splitTable (elem : BaseElement) (available_height : Rat) :
    Option BaseElement × Option BaseElement :=
  let row_height := elem.props.getNum "row_height" 20
  let data := elem.props.getRows "data"
  if data = [] ∨ available_height < row_height then (none, some elem)
  else
    let rows_that_fit := pyInt (available_height / row_height)
    if (data.length : Int) ≤ rows_that_fit then (some elem, none)
    else
      let first_part_data := pySliceTo rows_that_fit data
      let remaining_data := pySliceFrom rows_that_fit data
      (some { elem with
                props := elem.props.set "data" (.rows first_part_data),
                height := (rows_that_fit : Rat) * row_height },
       some { elem with
                props := elem.props.set "data" (.rows remaining_data),
                height := (remaining_data.length : Rat) * row_height })

/-- Font specification an element hands to the measurement calls (the
`font_family` / `font_bold` / `font_italic` / `font_size` props with the
defaults of `export.py`; `FontHelper.resolve` and its fallback are folded
into the abstract measure). -/
def fontSpecOf (e : BaseElement) : FontSpec :=
  { family := e.props.getStr "font_family" "Helvetica".toList
    bold := e.props.getBool "font_bold" false
    italic := e.props.getBool "font_italic" false
    size := e.props.getNum "font_size" 12 }

/-- Wrapped line sequence of a text-box element against its own width and
font, as `export.py` computes it. -/
def elemWrapLines (cw : FontSpec → Char → Rat) (e : BaseElement) : List (List Char) :=
  wrapLines (cw (fontSpecOf e)) (mm_to_pt e.width) (e.props.getStr "text" [])

/-- from `export.py` `_split_textbox` lines 251–322. -/
def splitTextbox (cw : FontSpec → Char → Rat) (elem : BaseElement) (available_height : Rat) :
    Option BaseElement × Option BaseElement :=
  let font_size := elem.props.getNum "font_size" 12
  let line_height_mm := lineHeightMM font_size
  let text := elem.props.getStr "text" []
  if text = [] ∨ available_height < line_height_mm then (none, some elem)
  else
    let lines_that_fit := pyInt (available_height / line_height_mm)
    let lines := elemWrapLines cw elem
    if (lines.length : Int) ≤ lines_that_fit then
      (some { elem with height := (lines.length : Rat) * line_height_mm }, none)
    else
      let first_part_lines := pySliceTo lines_that_fit lines
      let remaining_lines := pySliceFrom lines_that_fit lines
      (some { elem with
                props := elem.props.set "text" (.str (joinSegs '\n' first_part_lines)),
                height := (lines_that_fit : Rat) * line_height_mm },
       some { elem with
                props := elem.props.set "text" (.str (joinSegs '\n' remaining_lines)),
                height := (remaining_lines.length : Rat) * line_height_mm })

/-- from `export.py` `_adjust_dynamic_heights` lines 333–375: the body of
the `for elem in sorted_elements` loop, returning the updated element and
the updated cumulative offset. -/
def adjustOne (cumulative_offset : Rat) (e0 : BaseElement) : BaseElement × Rat :=
  let e : BaseElement := { e0 with y := e0.y + cumulative_offset }
  match e.type with
  | .table =>
    let data := e.props.getRows "data"
    if data = [] then (e, cumulative_offset)
    else
      let props1 := if e.props.hasKey "base_height" then e.props
                    else e.props.set "base_height" (.num e.height)
      let base_height := props1.getNum "base_height" 0
      let num_rows_editor := props1.getNum "num_rows_editor" 3
      let row_height := base_height / num_rows_editor
      let props2 := props1.set "row_height" (.num row_height)
      let new_height := row_height * (data.length : Rat)
      ({ e with props := props2, height := new_height },
       cumulative_offset + (new_height - e.height))
  | .text_box =>
    let props1 := if e.props.hasKey "base_height" then e.props
                  else e.props.set "base_height" (.num e.height)
    ({ e with props := props1 }, cumulative_offset)
  | _ => (e, cumulative_offset)

/-- Stable insertion used to model Python's stable `sorted(elements,
key=lambda e: e.y)`: a new element goes after every already-placed element
whose key is less than or equal to its own.  A stable sort is unique as a
function, so this is extensionally the sort the code performs. -/
def insertByY (e : BaseElement) : List BaseElement → List BaseElement
  | [] => [e]
  | x :: xs => if x.y ≤ e.y then x :: insertByY e xs else e :: x :: xs

/-- Python `sorted(elements, key=lambda e: e.y)`. -/
def sortByY (elements : List BaseElement) : List BaseElement :=
  elements.foldl (fun acc e => insertByY e acc) []

/-- The `for elem in sorted_elements` loop of `_adjust_dynamic_heights`. -/
def adjustPass : Rat → List BaseElement → List BaseElement
  | _, [] => []
  | off, e :: rest =>
    let r := adjustOne off e
    r.1 :: adjustPass r.2 rest

/-- from `export.py` `_adjust_dynamic_heights` lines 324–377. -/
def adjustDynamicHeights (elements : List BaseElement) : List BaseElement :=
  adjustPass 0 (sortByY elements)

/-- Paginator state: the completed pages, the page currently being filled
(`pages[current_page]` in the code), and the current cursor `current_y`. -/
structure PagState where
  closed : List (List BaseElement)
  cur : List BaseElement
  y : Rat
deriving DecidableEq

/-- Append an element to the current page (`pages[current_page].append`). -/
def pushElem (st : PagState) (e : BaseElement) : PagState :=
  { st with cur := st.cur ++ [e] }

/-- Start a new page (`current_page += 1; pages.append([])`) with the given
cursor position. -/
def newPage (st : PagState) (y0 : Rat) : PagState :=
  { closed := st.closed ++ [st.cur], cur := [], y := y0 }

/-- from `export.py` `_paginate_elements` lines 149–200: the `while
remaining_elem is not None` loop, shared by the table and text-box
branches (they are syntactically identical up to the split function).
Fuel bounds the number of iterations; `none` means it was exhausted. -/
def splitLoop (split : BaseElement → Rat → Option BaseElement × Option BaseElement)
    (page_height top_margin : Rat) : Nat → PagState → BaseElement → Option PagState
  | 0, _, _ => none
  | fuel + 1, st, rem =>
    let available := page_height - st.y
    match split rem available with
    | (some f, some r) =>
      splitLoop split page_height top_margin fuel
        (newPage (pushElem st { f with y := st.y }) top_margin) r
    | (none, some r) =>
      splitLoop split page_height top_margin fuel (newPage st top_margin) r
    | (some f, none) =>
      some { pushElem st { f with y := st.y } with y := st.y + f.height }
    | (none, none) => some { st with y := page_height }

/-- from `export.py` `_paginate_elements` lines 100–132: the text-box
height recomputation done before the fit check. -/
def recomputeTextboxHeight (cw : FontSpec → Char → Rat) (e : BaseElement) : BaseElement :=
  if e.type = ElementType.text_box ∧ e.props.getStr "text" [] ≠ [] then
    { e with height :=
        ((elemWrapLines cw e).length : Rat) * lineHeightMM (e.props.getNum "font_size" 12) }
  else e

/-- from `export.py` `_paginate_elements` lines 96–208: processing of one
element of the input list. -/
def processElem (cw : FontSpec → Char → Rat) (page_height top_margin : Rat) (fuel : Nat)
    (st : PagState) (elem : BaseElement) : Option PagState :=
  let e := recomputeTextboxHeight cw elem
  let available_height := page_height - st.y
  if e.height ≤ available_height then
    some { pushElem st { e with y := st.y } with y := st.y + e.height }
  else if e.type = ElementType.table then
    splitLoop splitTable page_height top_margin fuel st e
  else if e.type = ElementType.text_box then
    splitLoop (splitTextbox cw) page_height top_margin fuel st e
  else
    some { pushElem (newPage st 0) { e with y := 0 } with y := e.height }

/-- The `for elem in elements` loop of `_paginate_elements`. -/
def paginateLoop (cw : FontSpec → Char → Rat) (page_height top_margin : Rat) (fuel : Nat) :
    PagState → List BaseElement → Option PagState
  | st, [] => some st
  | st, e :: rest =>
    match processElem cw page_height top_margin fuel st e with
    | none => none
    | some st' => paginateLoop cw page_height top_margin fuel st' rest

/-- from `export.py` `_paginate_elements` lines 78–210. -/
def paginateElements (cw : FontSpec → Char → Rat) (fuel : Nat)
    (elements : List BaseElement) (page_height top_margin : Rat) :
    Option (List (List BaseElement)) :=
  match paginateLoop cw page_height top_margin fuel { closed := [], cur := [], y := 0 } elements with
  | none => none
  | some st => some (st.closed ++ [st.cur])

/-- from `export.py` lines 13–15. -/
def THERMAL_PAPER_58MM : Rat := 58

/-- from `export.py` lines 13–15. -/
def THERMAL_PAPER_80MM : Rat := 80

/-- from `export.py` lines 13–15. -/
def THERMAL_PAPER_BOTTOM_MARGIN_MM : Rat := 10

/-- from `export.py` lines 45–48: the thermal-mode content-height scan
(`max_y` starts at `0`). -/
def maxBottom (elements : List BaseElement) : Rat :=
  elements.foldl (fun max_y e => max max_y (e.y + e.height)) 0

/-- The geometry-and-page output of `TemplateExporter.export`: the page
size handed to the renderer and the per-page element batches rendered. -/
structure ExportPlan where
  page_w : Rat
  page_h : Rat
  pages : List (List BaseElement)
deriving DecidableEq

/-- from `export.py` `TemplateExporter.export` lines 27–76, in
state-passing style: post block-provider state, post template state, and
the export plan (`none` if the pagination fuel ran out).  Rendering
itself is a per-element readout of the plan and is not modelled. -/
def exportSt (cw : FontSpec → Char → Rat) (isW isS : Char → Bool) (fuel : Nat)
    (bp : List (String × BlockBase)) (t : Template) :
    List (String × BlockBase) × Template × Option ExportPlan :=
  let c := compileSt isW isS bp t
  let elements := adjustDynamicHeights c.2.2
  let page_w := t.page_size.width
  let page_h := t.page_size.height
  let plan :=
    if page_w = THERMAL_PAPER_58MM ∨ page_w = THERMAL_PAPER_80MM then
      some { page_w := page_w,
             page_h := maxBottom elements + THERMAL_PAPER_BOTTOM_MARGIN_MM,
             pages := [elements] }
    else
      match paginateElements cw fuel elements page_h t.settings.page_top_margin_mm with
      | none => none
      | some pgs => some { page_w := page_w, page_h := page_h, pages := pgs }
  (c.1, c.2.1, plan)

/-- The export plan alone. -/
def exportPlan (cw : FontSpec → Char → Rat) (isW isS : Char → Bool) (fuel : Nat)
    (bp : List (String × BlockBase)) (t : Template) : Option ExportPlan :=
  (exportSt cw isW isS fuel bp t).2.2

/-- Scanner companion to `substGo` over the same `re.sub` match sequence:
checks that every placeholder matched in the text has no whitespace inside
the braces and an identifier absent from the data map. -/
def verbatimGo (isW isS : Char → Bool) (data : List (List Char × List Char)) :
    Nat → List Char → Bool
  | _, [] => true
  | 0, _ => true
  | fuel + 1, c :: cs =>
    match tryMatch isW isS (c :: cs) with
    | some (ws1, key, ws2, rest) =>
      ws1.isEmpty && ws2.isEmpty && (lookupData data key).isNone &&
        verbatimGo isW isS data fuel rest
    | none => verbatimGo isW isS data fuel cs

/-- Every placeholder matched in `s` is space-free inside the braces and
its identifier is absent from `data`. -/
def verbatimPreserved (isW isS : Char → Bool) (data : List (List Char × List Char))
    (s : List Char) : Bool :=
  verbatimGo isW isS data s.length s

/-- The fields of an element that the dynamic sizing pass never writes:
identity, kind, horizontal geometry. -/
def staticPart (e : BaseElement) : String × ElementType × Rat × Rat :=
  (e.id, e.type, e.x, e.width)

/-- Cursor placement: the i-th element is placed at the running sum of the
heights of the elements before it (the fixed-page layout the code
actually performs when everything fits on one page). -/
def placeRun (y0 : Rat) : List BaseElement → List BaseElement
  | [] => []
  | e :: rest => { e with y := y0 } :: placeRun (y0 + e.height) rest

/-- Total height of a list of elements. -/
def sumHeights (es : List BaseElement) : Rat := (es.map (fun e => e.height)).sum

/-- A constant character-width measure (every glyph one point wide), used
to instantiate theorems on concrete inputs. -/
def cwOne : FontSpec → Char → Rat := fun _ _ => 1

/-- A concrete rectangle element for instantiating theorems. -/
def sampleRect (i : String) (y h : Rat) : BaseElement :=
  { id := i, type := ElementType.rect, x := 0, y := y, width := 10, height := h,
    props := [], bindings := [], name := none }

/-- A concrete one-cell row matrix with `n` rows. -/
def rowsN (n : Nat) : List (List (List Char)) := List.replicate n [['r']]

/-- A concrete table element for instantiating theorems. -/
def sampleTable (n : Nat) (h : Rat) (extra : Props) : BaseElement :=
  { id := "t", type := ElementType.table, x := 0, y := 0, width := 50, height := h,
    props := ("data", PropValue.rows (rowsN n)) :: extra, bindings := [], name := none }

/-- A concrete text-box element for instantiating theorems. -/
def sampleTextbox (text : List Char) (w h : Rat) : BaseElement :=
  { id := "tb", type := ElementType.text_box, x := 0, y := 0, width := w, height := h,
    props := [("text", PropValue.str text)], bindings := [], name := none }

/-- Wrapped lines of an optional split part (`None` contributes no lines). -/
def optLines (cw : FontSpec → Char → Rat) : Option BaseElement → List (List Char)
  | none => []
  | some e => elemWrapLines cw e

/-- Invariant of the lines the wrap algorithm emits: a line is either the
blank line kept for an empty paragraph, or a single-space join of
nonempty words free of spaces and newlines that fits the width or is a
lone over-wide word. -/
def GoodLine (cw : Char → Rat) (max_width : Rat) (l : List Char) : Prop :=
  l = [] ∨ ∃ ws, ws ≠ [] ∧ (∀ w ∈ ws, w ≠ [] ∧ ' ' ∉ w ∧ '\n' ∉ w) ∧
    l = joinSegs ' ' ws ∧ (measureW cw l ≤ max_width ∨ ∃ w, ws = [w])

/-- Per-element preconditions under which the split loops of
`_paginate_elements` terminate: a table needs a strictly positive derived
row height no larger than the continuation space `pageHeight − topMargin`
and at least one data row; a text box needs a positive font size, a line
height no larger than the continuation space, nonempty text, and a
wrapped line sequence not ending in a blank line. -/
def TermOK (cw : FontSpec → Char → Rat) (page_height top_margin : Rat) (e : BaseElement) : Prop :=
  (e.type = ElementType.table →
    0 < e.props.getNum "row_height" 20 ∧
    e.props.getNum "row_height" 20 ≤ page_height - top_margin ∧
    e.props.getRows "data" ≠ []) ∧
  (e.type = ElementType.text_box →
    0 < e.props.getNum "font_size" 12 ∧
    lineHeightMM (e.props.getNum "font_size" 12) ≤ page_height - top_margin ∧
    e.props.getStr "text" [] ≠ [] ∧
    (elemWrapLines cw e).getLast? ≠ some [])

/-- Fuel sufficient to process one element: two iterations per table row
or wrapped line plus two page turns. -/
def elemFuel (cw : FontSpec → Char → Rat) (e : BaseElement) : Nat :=
  2 * (e.props.getRows "data").length + 2 * (elemWrapLines cw e).length + 2

/-- A concrete one-rectangle template for instantiating theorems. -/
def sampleTemplate (w : Rat) : Template :=
  { id := "tpl", template_name := "T",
    page_size := { width := w, height := 100 },
    settings := { page_top_margin_mm := 20 },
    items := [TemplateItem.elem (ElementNode.node (sampleRect "a" 10 20) [])],
    global_variables := [] }

/- ------------------------------------------------------------------ -/
/- Theorems.                                                           -/
/- ------------------------------------------------------------------ -/

theorem Props.get?_set_self (p : Props) (k : String) (v : PropValue) :
    (p.set k v).get? k = some v := by
  induction p with
  | nil => simp [Props.set, Props.get?]
  | cons kv rest ih =>
    by_cases h : kv.1 = k
    · simp [Props.set, Props.get?, h]
    · simp [Props.set, Props.get?, h, ih]

theorem Props.get?_set_ne (p : Props) (k k' : String) (v : PropValue) (h : k' ≠ k) :
    (p.set k v).get? k' = p.get? k' := by
  induction p with
  | nil =>
    simp only [Props.set, Props.get?]
    rw [if_neg (fun hh => h hh.symm)]
  | cons kv rest ih =>
    by_cases hk : kv.1 = k
    · subst hk
      simp only [Props.set, if_pos rfl, Props.get?]
      rw [if_neg (fun hh : kv.1 = k' => h hh.symm), if_neg (fun hh : kv.1 = k' => h hh.symm)]
    · simp only [Props.set, if_neg hk, Props.get?]
      by_cases hk2 : kv.1 = k'
      · simp [hk2]
      · simp [hk2, ih]

theorem pyInt_of_nonneg (q : Rat) (h : 0 ≤ q) : pyInt q = Int.floor q := by
  simp [pyInt, h]

/-- C5: splitting a table computes `rowsThatFit = floor(available /
rowHeight)`; with fewer than `rowsThatFit` rows there is no split;
otherwise the first part holds rows `[0, rowsThatFit)` with height
`rowsThatFit × rowHeight`, the remaining part holds the other rows with
height `(n − rowsThatFit) × rowHeight`, the two parts partition the row
matrix (no partial row), and with zero rows fitting the whole table moves
to the next page (empty first part). -/
theorem split_table_spec (elem : BaseElement) (avail : Rat)
    (hrh : 0 < elem.props.getNum "row_height" 20)
    (ha : 0 ≤ avail)
    (hd : elem.props.getRows "data" ≠ []) :
    (avail < elem.props.getNum "row_height" 20 →
       splitTable elem avail = (none, some elem)) ∧
    (((elem.props.getRows "data").length : Int) ≤ Int.floor (avail / elem.props.getNum "row_height" 20) →
       splitTable elem avail = (some elem, none)) ∧
    (elem.props.getNum "row_height" 20 ≤ avail →
     Int.floor (avail / elem.props.getNum "row_height" 20) < ((elem.props.getRows "data").length : Int) →
       (let row_height := elem.props.getNum "row_height" 20
        let data := elem.props.getRows "data"
        let k : Int := Int.floor (avail / row_height)
        splitTable elem avail =
          (some { elem with
                    props := elem.props.set "data" (.rows (data.take k.toNat)),
                    height := (k : Rat) * row_height },
           some { elem with
                    props := elem.props.set "data" (.rows (data.drop k.toNat)),
                    height := ((data.length : Rat) - (k : Rat)) * row_height }) ∧
        data.take k.toNat ++ data.drop k.toNat = data)) := by
  have hq : 0 ≤ avail / elem.props.getNum "row_height" 20 :=
    div_nonneg ha (le_of_lt hrh)
  have hk0 : 0 ≤ Int.floor (avail / elem.props.getNum "row_height" 20) :=
    Int.floor_nonneg.2 hq
  refine ⟨?_, ?_, ?_⟩
  · intro hlt
    simp only [splitTable]
    rw [if_pos (Or.inr hlt)]
  · intro hfit
    have hnotlt : ¬ avail < elem.props.getNum "row_height" 20 := by
      intro hlt
      have h1 : avail / elem.props.getNum "row_height" 20 < 1 :=
        (div_lt_one hrh).2 hlt
      have h2 : Int.floor (avail / elem.props.getNum "row_height" 20) < (1 : Int) :=
        Int.floor_lt.2 (by exact_mod_cast h1)
      have h3 : (elem.props.getRows "data").length ≠ 0 := by
        simpa [List.length_eq_zero] using hd
      have h4 : (1 : Int) ≤ ((elem.props.getRows "data").length : Int) := by
        exact_mod_cast Nat.one_le_iff_ne_zero.2 h3
      omega
    simp only [splitTable]
    rw [if_neg (by
      rintro (hcon | hcon)
      · exact hd hcon
      · exact hnotlt hcon)]
    rw [pyInt_of_nonneg _ hq, if_pos hfit]
  · intro hge hlt
    have hnotlt : ¬ avail < elem.props.getNum "row_height" 20 := not_lt.2 hge
    have hnotfit : ¬ ((elem.props.getRows "data").length : Int) ≤
        Int.floor (avail / elem.props.getNum "row_height" 20) := not_le.2 hlt
    refine ⟨?_, List.take_append_drop _ _⟩
    simp only [splitTable]
    rw [if_neg (by
      rintro (hcon | hcon)
      · exact hd hcon
      · exact hnotlt hcon)]
    rw [pyInt_of_nonneg _ hq, if_neg hnotfit]
    have hkk : ((Int.floor (avail / elem.props.getNum "row_height" 20)).toNat : Int) =
        Int.floor (avail / elem.props.getNum "row_height" 20) := Int.toNat_of_nonneg hk0
    have hle : (Int.floor (avail / elem.props.getNum "row_height" 20)).toNat ≤
        (elem.props.getRows "data").length := by omega
    simp only [pySliceTo, pySliceFrom, if_pos hk0]
    have hh : ((List.drop (⌊avail / elem.props.getNum "row_height" 20⌋.toNat)
          (elem.props.getRows "data")).length : Rat)
        = ((elem.props.getRows "data").length : Rat)
          - ((⌊avail / elem.props.getNum "row_height" 20⌋ : Int) : Rat) := by
      rw [List.length_drop, Nat.cast_sub hle]
      congr 1
      exact_mod_cast hkk
    rw [hh]

/-- C5 witness: the spec's own example — available 25mm, row height 10mm,
5 rows: the first part keeps 2 rows at 20mm height, the remainder 3 rows
at 30mm height. -/
theorem split_table_spec_witness :
    splitTable (sampleTable 5 50 [("row_height", PropValue.num 10)]) 25 =
      (some { sampleTable 5 50 [("row_height", PropValue.num 10)] with
                props := (sampleTable 5 50 [("row_height", PropValue.num 10)]).props.set "data"
                  (.rows (rowsN 2)),
                height := 20 },
       some { sampleTable 5 50 [("row_height", PropValue.num 10)] with
                props := (sampleTable 5 50 [("row_height", PropValue.num 10)]).props.set "data"
                  (.rows (rowsN 3)),
                height := 30 }) := by
  have hrw : (sampleTable 5 50 [("row_height", PropValue.num 10)]).props.getNum "row_height" 20 = 10 := rfl
  have hdata : (sampleTable 5 50 [("row_height", PropValue.num 10)]).props.getRows "data" = rowsN 5 := rfl
  have hrh : (0:Rat) < (sampleTable 5 50 [("row_height", PropValue.num 10)]).props.getNum "row_height" 20 := by
    rw [hrw]; norm_num
  have hd : (sampleTable 5 50 [("row_height", PropValue.num 10)]).props.getRows "data" ≠ [] := by
    rw [hdata]; simp [rowsN]
  have hfl : Int.floor ((25:Rat) / 10) = 2 := by
    rw [Int.floor_eq_iff]
    norm_num
  have h3 := (split_table_spec (sampleTable 5 50 [("row_height", PropValue.num 10)]) 25 hrh
      (by norm_num) hd).2.2
      (by rw [hrw]; norm_num)
      (by rw [hrw, hdata, hfl]; norm_num [rowsN])
  simp only [] at h3
  rw [hrw, hdata, hfl] at h3
  rw [h3.1]
  norm_num [rowsN, List.take_replicate, List.drop_replicate, show Int.toNat 2 = 2 from rfl]

/-- C6 counterexample: the claim quantifies over every Table element, but
a table whose bound row matrix is empty is skipped untouched by the
sizing pass — its height stays 30mm, whereas the claim's formula
`rowHeight × actualRowCount` gives 0. -/
theorem table_dynamic_height_counterexample :
    (adjustOne 0 (sampleTable 0 30 [])).1.height = 30 ∧ ((30 : Rat) ≠ 0) := by
  constructor
  · norm_num [adjustOne, sampleTable, Props.getRows, Props.get?, rowsN]
  · norm_num

/-- C6 (amended: restricted to tables with a nonempty row matrix): the
sizing pass captures `base_height` (keeping an already-present value) and
the design row count (`num_rows_editor`, default 3), derives `row_height
= base_height / num_rows_editor`, stores both props, and sets the new
height to `row_height × actualRowCount`, accumulating the delta into the
cumulative offset. -/
theorem table_dynamic_height (off : Rat) (e : BaseElement)
    (hty : e.type = ElementType.table)
    (hd : e.props.getRows "data" ≠ []) :
    (let props1 := if e.props.hasKey "base_height" then e.props
                   else e.props.set "base_height" (.num e.height)
     let base := props1.getNum "base_height" 0
     let design := props1.getNum "num_rows_editor" 3
     let rh := base / design
     let n : Rat := ((e.props.getRows "data").length : Rat)
     (adjustOne off e).1.height = rh * n ∧
     (adjustOne off e).1.props.getNum "row_height" 0 = rh ∧
     (adjustOne off e).1.props.getNum "base_height" 0 = base ∧
     (adjustOne off e).2 = off + (rh * n - e.height)) := by
  have h1 : ({ e with y := e.y + off } : BaseElement).type = ElementType.table := hty
  have ha : adjustOne off e =
      (let props1 := if e.props.hasKey "base_height" then e.props
                     else e.props.set "base_height" (.num e.height)
       let rh := props1.getNum "base_height" 0 / props1.getNum "num_rows_editor" 3
       ({ e with
            y := e.y + off,
            props := props1.set "row_height" (.num rh),
            height := rh * ((e.props.getRows "data").length : Rat) },
        off + (rh * ((e.props.getRows "data").length : Rat) - e.height))) := by
    simp only [adjustOne, hty]
    rw [if_neg hd]
  rw [ha]
  refine ⟨rfl, ?_, ?_, rfl⟩
  · simp [Props.getNum, Props.get?_set_self]
  · simp only [Props.getNum]
    rw [Props.get?_set_ne _ _ _ _ (by decide)]

/-- C6 witness: base height 30mm, absent design row count (default 3, so
row height 10mm), 5 data rows: resolved height 50mm, with `base_height`
and `row_height` captured in the props. -/
theorem table_dynamic_height_witness :
    (adjustOne 0 (sampleTable 5 30 [])).1.height = 50 ∧
    (adjustOne 0 (sampleTable 5 30 [])).1.props.getNum "row_height" 0 = 10 ∧
    (adjustOne 0 (sampleTable 5 30 [])).1.props.getNum "base_height" 0 = 30 := by
  have hd : (sampleTable 5 30 []).props.getRows "data" ≠ [] := by
    simp [sampleTable, Props.getRows, Props.get?, rowsN]
  have h := table_dynamic_height 0 (sampleTable 5 30 []) (by rfl) hd
  have e1 : (sampleTable 5 30 []).props.hasKey "base_height" = false := rfl
  have e2 : ((sampleTable 5 30 []).props.set "base_height" (.num (sampleTable 5 30 []).height)).getNum "base_height" 0 = 30 := rfl
  have e3 : ((sampleTable 5 30 []).props.set "base_height" (.num (sampleTable 5 30 []).height)).getNum "num_rows_editor" 3 = 3 := rfl
  have e4 : (sampleTable 5 30 []).props.getRows "data" = rowsN 5 := rfl
  rw [e1] at h
  simp only [Bool.false_eq_true, if_false, e2, e3, e4] at h
  refine ⟨?_, ?_, ?_⟩
  · rw [h.1]; norm_num [rowsN]
  · rw [h.2.1]; norm_num
  · rw [h.2.2.1]

theorem tryMatch_sound {isW isS : Char → Bool} {s ws1 key ws2 rest : List Char}
    (h : tryMatch isW isS s = some (ws1, key, ws2, rest)) :
    s = '{' :: '{' :: (ws1 ++ (key ++ (ws2 ++ '}' :: '}' :: rest))) ∧ key ≠ [] := by
  match s with
  | [] => simp [tryMatch] at h
  | [c1] => simp [tryMatch] at h
  | c1 :: c2 :: t =>
    simp only [tryMatch, List.span_eq_take_drop] at h
    split_ifs at h with h12 hkey
    · obtain ⟨hc1, hc2⟩ := h12
      subst hc1; subst hc2
      set b := t.dropWhile isS with hb
      set kw := b.takeWhile isW with hkw
      set b2 := b.dropWhile isW with hb2
      match hm : b2.dropWhile isS, h with
      | [], h => simp at h
      | [d1], h => simp at h
      | d1 :: d2 :: r, h =>
        simp only [] at h
        split_ifs at h with hdd
        obtain ⟨hd1, hd2⟩ := hdd
        subst hd1; subst hd2
        simp only [Option.some.injEq, Prod.mk.injEq] at h
        obtain ⟨h1, h2, h3, h4⟩ := h
        subst h1; subst h2; subst h3; subst h4
        refine ⟨?_, hkey⟩
        have e1 : List.takeWhile isS t ++ b = t := by
          rw [hb]; exact List.takeWhile_append_dropWhile _ _
        have e2 : kw ++ b2 = b := by
          rw [hkw, hb2]; exact List.takeWhile_append_dropWhile _ _
        have e3 : List.takeWhile isS b2 ++ ('}' :: '}' :: r) = b2 := by
          rw [← hm]; exact List.takeWhile_append_dropWhile _ _
        have e4 : List.takeWhile isS t ++ (kw ++ (List.takeWhile isS b2 ++ ('}' :: '}' :: r))) = t := by
          rw [e3, e2, e1]
        simp only [List.cons.injEq, true_and]
        exact e4.symm

theorem substGo_of_verbatim (isW isS : Char → Bool) (data : List (List Char × List Char)) :
    ∀ (fuel : Nat) (s : List Char),
      verbatimGo isW isS data fuel s = true → substGo isW isS data fuel s = s := by
  intro fuel
  induction fuel with
  | zero =>
    intro s hv
    cases s with
    | nil => rfl
    | cons c cs => rfl
  | succ n ih =>
    intro s hv
    cases s with
    | nil => rfl
    | cons c cs =>
      rw [verbatimGo] at hv
      rw [substGo]
      cases htm : tryMatch isW isS (c :: cs) with
      | none =>
        rw [htm] at hv
        simp only [] at hv ⊢
        rw [ih cs hv]
      | some res =>
        obtain ⟨ws1, key, ws2, rest⟩ := res
        rw [htm] at hv
        simp only [Bool.and_eq_true, List.isEmpty_iff, Option.isNone_iff_eq_none] at hv
        simp only []
        obtain ⟨⟨⟨h1, h2⟩, h3⟩, h4⟩ := hv
        rw [h3, ih rest h4]
        have hs := tryMatch_sound htm
        rw [hs.1, h1, h2]
        simp

/-- C8 (amended: placeholders with no whitespace inside the braces), for
every word class `isW` and whitespace class `isS` — in particular for
Python's Unicode `\w` and `\s`: when every placeholder the engine matches
in a text is written without internal whitespace and its identifier is
absent from the data map, substitution returns the text byte-identically.
(A matched placeholder that does contain whitespace around the identifier
— ASCII or not — is re-emitted in the normalised form braces + identifier
+ braces, dropping the whitespace — see the counterexample.) -/
theorem substitute_missing_keys_verbatim (isW isS : Char → Bool)
    (data : List (List Char × List Char)) (s : List Char)
    (h : verbatimPreserved isW isS data s = true) :
    substituteText isW isS data s = s :=
  substGo_of_verbatim isW isS data s.length s h

/-- C8 witness: the spec's example — substituting into
`"Hello \x7b\x7bname\x7d\x7d"` with an empty data map returns the exact
same text (instantiated at the ASCII classes, on which `\w` and `\s`
agree for this ASCII input). -/
theorem substitute_missing_keys_verbatim_witness :
    verbatimPreserved asciiWordChar asciiRESpace [] ("Hello \x7b\x7bname\x7d\x7d".toList) = true ∧
    substituteText asciiWordChar asciiRESpace [] ("Hello \x7b\x7bname\x7d\x7d".toList) =
      "Hello \x7b\x7bname\x7d\x7d".toList := by
  refine ⟨by decide, substitute_missing_keys_verbatim asciiWordChar asciiRESpace [] _ (by decide)⟩

/-- C8 counterexample: a placeholder with whitespace inside the braces
whose identifier is absent from the data map is NOT left verbatim: the
engine re-emits it with the whitespace silently dropped, so "left
verbatim ... byte-identical" fails for it.  Shown twice: for the ASCII
identifier `"\x7b\x7b name \x7d\x7d"` (rewritten to
`"\x7b\x7bname\x7d\x7d"`) under the ASCII classes, and for the non-ASCII
identifier `"\x7b\x7b é \x7d\x7d"` (rewritten to `"\x7b\x7bé\x7d\x7d"`)
under a word class containing `é`, as Python's Unicode `\w` does. -/
theorem substitute_missing_keys_counterexample :
    (substituteText asciiWordChar asciiRESpace [] ("\x7b\x7b name \x7d\x7d".toList) =
        "\x7b\x7bname\x7d\x7d".toList ∧
      "\x7b\x7b name \x7d\x7d".toList ≠ "\x7b\x7bname\x7d\x7d".toList) ∧
    (substituteText (fun c => asciiWordChar c || c = 'é') asciiRESpace []
        ("\x7b\x7b é \x7d\x7d".toList) = "\x7b\x7bé\x7d\x7d".toList ∧
      "\x7b\x7b é \x7d\x7d".toList ≠ "\x7b\x7bé\x7d\x7d".toList) := by
  refine ⟨⟨by decide, by decide⟩, by decide, by decide⟩

theorem staticPart_adjustOne (off : Rat) (e : BaseElement) :
    staticPart (adjustOne off e).1 = staticPart e := by
  cases h : e.type
  all_goals simp only [adjustOne, h, staticPart]
  all_goals first
    | rfl
    | (split_ifs
       all_goals rfl)

theorem adjustPass_map_static (l : List BaseElement) :
    ∀ off : Rat, (adjustPass off l).map staticPart = l.map staticPart := by
  induction l with
  | nil => intro off; rfl
  | cons e rest ih =>
    intro off
    simp only [adjustPass, List.map_cons]
    rw [staticPart_adjustOne, ih]

theorem insertByY_perm (e : BaseElement) (l : List BaseElement) :
    (insertByY e l).Perm (e :: l) := by
  induction l with
  | nil => exact List.Perm.refl _
  | cons x xs ih =>
    simp only [insertByY]
    split_ifs with hle
    · exact (ih.cons x).trans (List.Perm.swap e x xs)
    · exact List.Perm.refl _

theorem foldl_insertByY_perm (es : List BaseElement) :
    ∀ acc : List BaseElement,
      (es.foldl (fun a e => insertByY e a) acc).Perm (acc ++ es) := by
  induction es with
  | nil => intro acc; simp
  | cons e rest ih =>
    intro acc
    simp only [List.foldl_cons]
    refine (ih (insertByY e acc)).trans ?_
    have h1 : (insertByY e acc ++ rest).Perm ((e :: acc) ++ rest) :=
      (insertByY_perm e acc).append_right rest
    refine h1.trans ?_
    simp only [List.cons_append]
    exact (List.perm_middle).symm

theorem mem_insertByY {a e : BaseElement} {l : List BaseElement} :
    a ∈ insertByY e l ↔ a = e ∨ a ∈ l := by
  rw [(insertByY_perm e l).mem_iff]
  simp

theorem insertByY_pairwise (e : BaseElement) (l : List BaseElement)
    (h : l.Pairwise (fun a b => a.y ≤ b.y)) :
    (insertByY e l).Pairwise (fun a b => a.y ≤ b.y) := by
  induction l with
  | nil => simp [insertByY]
  | cons x xs ih =>
    rw [List.pairwise_cons] at h
    obtain ⟨hx, hxs⟩ := h
    simp only [insertByY]
    split_ifs with hle
    · rw [List.pairwise_cons]
      refine ⟨?_, ih hxs⟩
      intro a ha
      rcases mem_insertByY.1 ha with rfl | ha
      · exact hle
      · exact hx a ha
    · rw [List.pairwise_cons]
      refine ⟨?_, List.pairwise_cons.2 ⟨hx, hxs⟩⟩
      intro a ha
      rcases List.mem_cons.1 ha with rfl | ha
      · exact (not_le.1 hle).le
      · exact ((not_le.1 hle).le).trans (hx a ha)

theorem sortByY_pairwise (es : List BaseElement) :
    (sortByY es).Pairwise (fun a b => a.y ≤ b.y) := by
  have key : ∀ (l : List BaseElement) (acc : List BaseElement),
      acc.Pairwise (fun a b => a.y ≤ b.y) →
      (l.foldl (fun a e => insertByY e a) acc).Pairwise (fun a b => a.y ≤ b.y) := by
    intro l
    induction l with
    | nil => intro acc h; exact h
    | cons e rest ih =>
      intro acc h
      simp only [List.foldl_cons]
      exact ih _ (insertByY_pairwise e acc h)
  exact key es [] (List.Pairwise.nil)

/-- C2 (amended): the dynamic sizing pass returns the input elements
stably sorted by their original `y` (ascending), not in input order: the
i-th output element corresponds to the i-th element of the `y`-sorted
input (same id, kind and horizontal geometry; only `y`, `height` and the
captured props change), the sorted list is a permutation of the input,
and it is ordered by `y`. -/
theorem adjust_returns_sorted_order (es : List BaseElement) :
    (adjustDynamicHeights es).map staticPart = (sortByY es).map staticPart ∧
    (sortByY es).Perm es ∧
    (sortByY es).Pairwise (fun a b => a.y ≤ b.y) := by
  refine ⟨adjustPass_map_static (sortByY es) 0, ?_, sortByY_pairwise es⟩
  have h := foldl_insertByY_perm es []
  simpa [sortByY] using h

/-- C2 counterexample: two elements given in the order (id "a" at y=10mm,
id "b" at y=0mm) come out of the sizing pass in the order (“b”, “a”) —
the i-th output element does not correspond to the i-th input element. -/
theorem adjust_input_order_counterexample :
    (adjustDynamicHeights [sampleRect "a" 10 5, sampleRect "b" 0 5]).map (fun e => e.id) =
      ["b", "a"] ∧
    [sampleRect "a" 10 5, sampleRect "b" 0 5].map (fun e => e.id) = ["a", "b"] ∧
    (["b", "a"] : List String) ≠ ["a", "b"] := by
  refine ⟨?_, rfl, by decide⟩
  norm_num [adjustDynamicHeights, sortByY, insertByY, adjustPass, adjustOne, sampleRect,
    List.foldl_cons, staticPart]

/-- C3 (amended): a non-Table, non-TextBox element that does not fit in
the remaining space of the current page is moved whole to the next page —
it never appears on the original page — but it is placed there at `y = 0`,
not at `y = topMargin`: the configured top margin is not applied in this
branch (`_paginate_elements` lines 201–208 reset `current_y` to `0.0`). -/
theorem nonsplittable_overflow_next_page (cw : FontSpec → Char → Rat)
    (ph tm : Rat) (fuel : Nat) (st : PagState) (e : BaseElement)
    (hty1 : e.type ≠ ElementType.table) (hty2 : e.type ≠ ElementType.text_box)
    (hof : ¬ (e.height ≤ ph - st.y)) :
    processElem cw ph tm fuel st e =
      some { closed := st.closed ++ [st.cur], cur := [{ e with y := 0 }], y := e.height } := by
  have hrec : recomputeTextboxHeight cw e = e := by
    simp only [recomputeTextboxHeight]
    rw [if_neg (by
      rintro ⟨hc, -⟩
      exact hty2 hc)]
  simp only [processElem, hrec]
  rw [if_neg hof, if_neg hty1, if_neg hty2]
  simp [pushElem, newPage]

/-- C3 witness: page height 100mm, top margin 20mm, a 60mm rectangle with
a cursor already at 60mm: it moves whole to a fresh page at `y = 0`. -/
theorem nonsplittable_overflow_next_page_witness :
    processElem cwOne 100 20 0
        { closed := [], cur := [sampleRect "a" 0 60], y := 60 } (sampleRect "b" 5 60) =
      some { closed := [[sampleRect "a" 0 60]], cur := [sampleRect "b" 0 60], y := 60 } := by
  have h := nonsplittable_overflow_next_page cwOne 100 20 0
      { closed := [], cur := [sampleRect "a" 0 60], y := 60 } (sampleRect "b" 5 60)
      (by decide) (by decide) (by norm_num [sampleRect])
  rw [h]
  norm_num [sampleRect]

/-- C3 counterexample: the claim says the moved element is placed at `y =
topMargin` on the next page; with top margin 20mm the code places it at
`y = 0`.  Two 60mm rectangles on a 100mm page: the second lands on page 1
at `y = 0`, and `0 ≠ 20 = topMargin`. -/
theorem nonsplittable_topmargin_counterexample :
    paginateElements cwOne 1 [sampleRect "a" 0 60, sampleRect "b" 0 60] 100 20 =
      some [[sampleRect "a" 0 60], [sampleRect "b" 0 60]] ∧
    (0 : Rat) ≠ 20 := by
  constructor
  · norm_num [paginateElements, paginateLoop, processElem, recomputeTextboxHeight,
      pushElem, newPage, sampleRect, Props.getStr, Props.get?,
      show ElementType.rect ≠ ElementType.table from by decide,
      show ElementType.rect ≠ ElementType.text_box from by decide]
  · norm_num

theorem sumHeights_cons (e : BaseElement) (rest : List BaseElement) :
    sumHeights (e :: rest) = e.height + sumHeights rest := by
  simp [sumHeights]

theorem sumHeights_nonneg (es : List BaseElement) (h : ∀ e ∈ es, 0 ≤ e.height) :
    0 ≤ sumHeights es := by
  refine List.sum_nonneg ?_
  intro x hx
  obtain ⟨e, he, rfl⟩ := List.mem_map.1 hx
  exact h e he

theorem paginateLoop_all_fit (cw : FontSpec → Char → Rat) (ph tm : Rat) (fuel : Nat) :
    ∀ (es : List BaseElement) (st : PagState),
      (∀ e ∈ es, e.type ≠ ElementType.text_box) →
      (∀ e ∈ es, 0 ≤ e.height) →
      st.y + sumHeights es ≤ ph →
      paginateLoop cw ph tm fuel st es =
        some { closed := st.closed, cur := st.cur ++ placeRun st.y es, y := st.y + sumHeights es } := by
  intro es
  induction es with
  | nil =>
    intro st _ _ _
    simp [paginateLoop, placeRun, sumHeights]
  | cons e rest ih =>
    intro st h1 h2 h3
    have hrec : recomputeTextboxHeight cw e = e := by
      simp only [recomputeTextboxHeight]
      rw [if_neg (by
        rintro ⟨hc, -⟩
        exact h1 e (List.mem_cons_self e rest) hc)]
    have hrest0 : 0 ≤ sumHeights rest :=
      sumHeights_nonneg rest (fun x hx => h2 x (List.mem_cons_of_mem e hx))
    have hsum : st.y + (e.height + sumHeights rest) ≤ ph := by
      rw [← sumHeights_cons]; exact h3
    have hfit : e.height ≤ ph - st.y := by linarith
    simp only [paginateLoop, processElem, hrec]
    rw [if_pos hfit]
    simp only [pushElem]
    rw [ih { closed := st.closed, cur := st.cur ++ [{ e with y := st.y }], y := st.y + e.height }
        (fun x hx => h1 x (List.mem_cons_of_mem e hx))
        (fun x hx => h2 x (List.mem_cons_of_mem e hx))
        (by
          show st.y + e.height + sumHeights rest ≤ ph
          linarith)]
    simp [placeRun, sumHeights_cons, List.append_assoc, add_assoc]

/-- C1 (amended): fixed-page pagination is cursor-based, not the
coordinate-preserving absolute-Y model of the claim: elements are
processed in input order, each element's stored `y` is discarded, and an
element that fits into the space remaining below the cursor is placed at
the cursor position, which then advances by its height.  In particular,
when all elements fit on one page (no text boxes, nonnegative heights
summing to at most the page height), the output is a single page in which
the i-th element sits at the sum of the heights of elements 0..i-1 — a
position depending on the previously processed elements, not on the
element's own coordinates. -/
theorem paginate_cursor_model (cw : FontSpec → Char → Rat) (fuel : Nat)
    (es : List BaseElement) (ph tm : Rat)
    (h1 : ∀ e ∈ es, e.type ≠ ElementType.text_box)
    (h2 : ∀ e ∈ es, 0 ≤ e.height)
    (h3 : sumHeights es ≤ ph) :
    paginateElements cw fuel es ph tm = some [placeRun 0 es] := by
  simp only [paginateElements]
  rw [paginateLoop_all_fit cw ph tm fuel es { closed := [], cur := [], y := 0 } h1 h2
    (by simpa using h3)]
  simp

/-- C1 witness: two rectangles of heights 10mm and 20mm at stored
positions y=7mm and y=3mm on a 100mm page come out on one page at the
cursor positions 0mm and 10mm. -/
theorem paginate_cursor_model_witness :
    paginateElements cwOne 1 [sampleRect "a" 7 10, sampleRect "b" 3 20] 100 20 =
      some [[sampleRect "a" 0 10, sampleRect "b" 10 20]] := by
  have h := paginate_cursor_model cwOne 1 [sampleRect "a" 7 10, sampleRect "b" 3 20] 100 20
      (by decide)
      (by
        intro e he
        rcases List.mem_cons.1 he with rfl | he
        · norm_num [sampleRect]
        · rcases List.mem_cons.1 he with rfl | he
          · norm_num [sampleRect]
          · simp at he)
      (by norm_num [sumHeights, sampleRect])
  rw [h]
  norm_num [placeRun, sampleRect]

/-- C1 counterexample: the claim's absolute-Y model says an element with
`y = 500` on a 100mm page goes to page index `floor(500/100) = 5` at its
own page-local coordinate; the code ignores the element's `y` entirely
and places it on the first page (the only page) at the cursor, `y = 0`. -/
theorem paginate_absolute_y_counterexample :
    paginateElements cwOne 1 [sampleRect "a" 500 10] 100 20 =
      some [[sampleRect "a" 0 10]] ∧
    Int.floor ((500 : Rat) / 100) = 5 ∧ (5 : Int) ≠ 0 := by
  refine ⟨?_, ?_, by decide⟩
  · norm_num [paginateElements, paginateLoop, processElem, recomputeTextboxHeight,
      pushElem, newPage, sampleRect, Props.getStr, Props.get?,
      show ElementType.rect ≠ ElementType.table from by decide,
      show ElementType.rect ≠ ElementType.text_box from by decide]
  · rw [Int.floor_eq_iff]
    norm_num

mutual

theorem flattenTree_fst : ∀ (en : ElementNode) (ox oy : Rat), (flattenTree en ox oy).1 = en
  | .node d cs, ox, oy => by
    simp only [flattenTree]
    exact congrArg (ElementNode.node d) (flattenChildren_fst cs _ _)

theorem flattenChildren_fst :
    ∀ (cs : List ElementNode) (ox oy : Rat), (flattenChildren cs ox oy).1 = cs
  | [], _, _ => rfl
  | c :: cs, ox, oy => by
    simp only [flattenChildren]
    rw [flattenTree_fst c, flattenChildren_fst cs]

end

theorem resolveBlockElems_fst (isW isS : Char → Bool) (inst : BlockInstance) :
    ∀ l : List ElementNode, (resolveBlockElems isW isS inst l).1 = l
  | [] => rfl
  | en :: rest => by
    simp only [resolveBlockElems]
    rw [flattenTree_fst en, resolveBlockElems_fst isW isS inst rest]

theorem setBlockElements_lookup (k : String) :
    ∀ (bp : List (String × BlockBase)) (bd : BlockBase),
      lookupBlock bp k = some bd → setBlockElements bp k bd.elements = bp
  | [], bd, h => by simp [lookupBlock] at h
  | (k', b) :: rest, bd, h => by
    by_cases hk : k' = k
    · have hb : b = bd := by
        simp only [lookupBlock, if_pos hk, Option.some.injEq] at h
        exact h
      subst hb
      simp [setBlockElements, hk]
    · simp only [lookupBlock, if_neg hk] at h
      simp [setBlockElements, hk, setBlockElements_lookup k rest bd h]

theorem resolveBlockSt_fst (isW isS : Char → Bool) (bp : List (String × BlockBase))
    (inst : BlockInstance) : (resolveBlockSt isW isS bp inst).1 = bp := by
  simp only [resolveBlockSt]
  cases hb : lookupBlock bp inst.block_id with
  | none => rfl
  | some bd =>
    simp only []
    rw [resolveBlockElems_fst, setBlockElements_lookup inst.block_id bp bd hb]

theorem compileItems_fst (isW isS : Char → Bool) :
    ∀ (items : List TemplateItem) (bp : List (String × BlockBase)),
      (compileItems isW isS bp items).1 = bp ∧ (compileItems isW isS bp items).2.1 = items
  | [], bp => ⟨rfl, rfl⟩
  | .block b :: rest, bp => by
    simp only [compileItems]
    rw [resolveBlockSt_fst isW isS bp b]
    exact ⟨(compileItems_fst isW isS rest bp).1,
      by rw [(compileItems_fst isW isS rest bp).2]⟩
  | .elem en :: rest, bp => by
    simp only [compileItems]
    rw [flattenTree_fst en]
    exact ⟨(compileItems_fst isW isS rest bp).1,
      by rw [(compileItems_fst isW isS rest bp).2]⟩

theorem compileSt_fst (isW isS : Char → Bool) (bp : List (String × BlockBase)) (t : Template) :
    (compileSt isW isS bp t).1 = bp ∧ (compileSt isW isS bp t).2.1 = t := by
  simp only [compileSt]
  refine ⟨(compileItems_fst isW isS t.items bp).1, ?_⟩
  rw [(compileItems_fst isW isS t.items bp).2]

/-- C9: the export pipeline never mutates the caller's template or the
block definitions.  In the state-passing embedding, the post-call state
of the block provider and of the template returned by `exportSt` equal
the inputs: all coordinate rewriting, substitution, binding application,
resizing and pagination happen on the deep copies the pipeline creates
(`copy.deepcopy` in `_flatten_tree` and `_paginate_elements`), never
through the caller's objects. -/
theorem export_preserves_caller (cw : FontSpec → Char → Rat) (isW isS : Char → Bool)
    (fuel : Nat) (bp : List (String × BlockBase)) (t : Template) :
    (exportSt cw isW isS fuel bp t).1 = bp ∧ (exportSt cw isW isS fuel bp t).2.1 = t := by
  simp only [exportSt]
  exact ⟨(compileSt_fst isW isS bp t).1, (compileSt_fst isW isS bp t).2⟩

theorem foldl_maxBottom_init_le (es : List BaseElement) :
    ∀ a : Rat, a ≤ es.foldl (fun m e => max m (e.y + e.height)) a := by
  induction es with
  | nil => intro a; exact le_refl a
  | cons e rest ih =>
    intro a
    simp only [List.foldl_cons]
    exact (le_max_left a (e.y + e.height)).trans (ih _)

theorem mem_le_foldl_maxBottom (es : List BaseElement) :
    ∀ (a : Rat) (e : BaseElement), e ∈ es →
      e.y + e.height ≤ es.foldl (fun m e => max m (e.y + e.height)) a := by
  induction es with
  | nil => intro a e he; simp at he
  | cons x rest ih =>
    intro a e he
    simp only [List.foldl_cons]
    rcases List.mem_cons.1 he with rfl | he
    · exact (le_max_right a (e.y + e.height)).trans (foldl_maxBottom_init_le rest _)
    · exact ih _ e he

theorem foldl_maxBottom_cases (es : List BaseElement) :
    ∀ a : Rat, es.foldl (fun m e => max m (e.y + e.height)) a = a ∨
      ∃ e ∈ es, es.foldl (fun m e => max m (e.y + e.height)) a = e.y + e.height := by
  induction es with
  | nil => intro a; exact Or.inl rfl
  | cons x rest ih =>
    intro a
    simp only [List.foldl_cons]
    rcases ih (max a (x.y + x.height)) with h | ⟨e, he, heq⟩
    · rcases max_choice a (x.y + x.height) with hm | hm
      · exact Or.inl (h.trans hm)
      · exact Or.inr ⟨x, List.mem_cons_self x rest, h.trans hm⟩
    · exact Or.inr ⟨e, List.mem_cons_of_mem x he, heq⟩

/-- C7: mode selection of `TemplateExporter.export`.  If the page width
is 58 or 80 (the thermal presets), the plan is a single page containing
every element with no pagination and no splitting, at page height
`maxBottom + 10`, where — whenever some element reaches a nonnegative
bottom — `maxBottom` is exactly the maximum of `y + height` over the
elements; for any other page width the fixed-page paginator is used. -/
theorem export_mode_selection (cw : FontSpec → Char → Rat) (isW isS : Char → Bool)
    (fuel : Nat) (bp : List (String × BlockBase)) (t : Template) :
    (t.page_size.width = 58 ∨ t.page_size.width = 80 →
       exportPlan cw isW isS fuel bp t =
         some { page_w := t.page_size.width,
                page_h := maxBottom (adjustDynamicHeights (compileSt isW isS bp t).2.2) + 10,
                pages := [adjustDynamicHeights (compileSt isW isS bp t).2.2] } ∧
       ((∃ e ∈ adjustDynamicHeights (compileSt isW isS bp t).2.2, 0 ≤ e.y + e.height) →
         ∃ e ∈ adjustDynamicHeights (compileSt isW isS bp t).2.2,
           maxBottom (adjustDynamicHeights (compileSt isW isS bp t).2.2) = e.y + e.height ∧
           ∀ e' ∈ adjustDynamicHeights (compileSt isW isS bp t).2.2,
             e'.y + e'.height ≤ maxBottom (adjustDynamicHeights (compileSt isW isS bp t).2.2))) ∧
    (t.page_size.width ≠ 58 ∧ t.page_size.width ≠ 80 →
       exportPlan cw isW isS fuel bp t =
         Option.map
           (fun pgs => { page_w := t.page_size.width, page_h := t.page_size.height,
                         pages := pgs })
           (paginateElements cw fuel (adjustDynamicHeights (compileSt isW isS bp t).2.2)
             t.page_size.height t.settings.page_top_margin_mm)) := by
  constructor
  · intro hw
    constructor
    · simp only [exportPlan, exportSt]
      rw [if_pos (by
        simpa [THERMAL_PAPER_58MM, THERMAL_PAPER_80MM] using hw)]
      rfl
    · intro hex
      obtain ⟨e0, he0, hpos⟩ := hex
      rcases foldl_maxBottom_cases (adjustDynamicHeights (compileSt isW isS bp t).2.2) 0 with hz | hx
      · refine ⟨e0, he0, ?_, ?_⟩
        · have h1 := mem_le_foldl_maxBottom (adjustDynamicHeights (compileSt isW isS bp t).2.2) 0 e0 he0
          have h2 : maxBottom (adjustDynamicHeights (compileSt isW isS bp t).2.2) = 0 := hz
          rw [h2]
          have h1' : e0.y + e0.height ≤ 0 := by
            have h3 : maxBottom (adjustDynamicHeights (compileSt isW isS bp t).2.2) =
                (adjustDynamicHeights (compileSt isW isS bp t).2.2).foldl
                  (fun m e => max m (e.y + e.height)) 0 := rfl
            rw [← h3, h2] at h1
            exact h1
          linarith
        · intro e' he'
          exact mem_le_foldl_maxBottom _ 0 e' he'
      · obtain ⟨e, he, heq⟩ := hx
        exact ⟨e, he, heq, fun e' he' => mem_le_foldl_maxBottom _ 0 e' he'⟩
  · intro hw
    simp only [exportPlan, exportSt]
    rw [if_neg (by
      simp only [THERMAL_PAPER_58MM, THERMAL_PAPER_80MM]
      rintro (hc | hc)
      · exact hw.1 hc
      · exact hw.2 hc)]
    cases paginateElements cw fuel (adjustDynamicHeights (compileSt isW isS bp t).2.2)
        t.page_size.height t.settings.page_top_margin_mm with
    | none => rfl
    | some pgs => rfl

/-- C7 witness: a 58mm-wide template with a single rectangle (y=10mm,
height 20mm) exports as one page of height 30+10 = 40mm holding the
rectangle, unsplit. -/
theorem export_mode_selection_witness :
    exportPlan cwOne asciiWordChar asciiRESpace 0 [] (sampleTemplate 58) =
      some { page_w := 58, page_h := 40, pages := [[sampleRect "a" 10 20]] } := by
  have h := (export_mode_selection cwOne asciiWordChar asciiRESpace 0 [] (sampleTemplate 58)).1
    (Or.inl rfl)
  rw [h.1]
  norm_num [sampleTemplate, compileSt, compileItems, flattenTree, flattenChildren,
    applyBindings, applyBindingsOne, adjustDynamicHeights, sortByY, insertByY,
    adjustPass, adjustOne, maxBottom, sampleRect]

theorem splitSegsAux_not_mem (c : Char) :
    ∀ s : List Char, c ∉ (splitSegsAux c s).1 ∧ ∀ seg ∈ (splitSegsAux c s).2, c ∉ seg := by
  intro s
  induction s with
  | nil => simp [splitSegsAux]
  | cons x xs ih =>
    simp only [splitSegsAux]
    by_cases hx : x = c
    · rw [if_pos hx]
      refine ⟨by simp, ?_⟩
      intro seg hseg
      rcases List.mem_cons.1 hseg with rfl | hseg
      · exact ih.1
      · exact ih.2 seg hseg
    · rw [if_neg hx]
      refine ⟨?_, ih.2⟩
      intro hc
      rcases List.mem_cons.1 hc with rfl | hc
      · exact hx rfl
      · exact ih.1 hc

theorem splitSegs_not_mem (c : Char) (s : List Char) :
    ∀ seg ∈ splitSegs c s, c ∉ seg := by
  intro seg hseg
  rcases List.mem_cons.1 hseg with rfl | hseg
  · exact (splitSegsAux_not_mem c s).1
  · exact (splitSegsAux_not_mem c s).2 seg hseg

theorem mem_of_mem_splitSegs (c : Char) :
    ∀ (s : List Char) (seg : List Char), seg ∈ splitSegs c s → ∀ x ∈ seg, x ∈ s := by
  intro s
  induction s with
  | nil =>
    intro seg hseg x hx
    simp [splitSegs, splitSegsAux] at hseg
    subst hseg
    simp at hx
  | cons a as ih =>
    intro seg hseg x hx
    simp only [splitSegs, splitSegsAux] at hseg
    by_cases ha : a = c
    · rw [if_pos ha] at hseg
      rcases List.mem_cons.1 hseg with rfl | hseg
      · simp at hx
      · exact List.mem_cons_of_mem a (ih seg hseg x hx)
    · rw [if_neg ha] at hseg
      rcases List.mem_cons.1 hseg with rfl | hseg
      · rcases List.mem_cons.1 hx with rfl | hx
        · exact List.mem_cons_self x as
        · exact List.mem_cons_of_mem a
            (ih _ (List.mem_cons_self _ _) x hx)
      · exact List.mem_cons_of_mem a
          (ih seg (List.mem_cons_of_mem _ hseg) x hx)

theorem splitSegsAux_of_not_mem (c : Char) :
    ∀ s : List Char, c ∉ s → splitSegsAux c s = (s, []) := by
  intro s
  induction s with
  | nil => intro _; rfl
  | cons x xs ih =>
    intro h
    have hx : ¬ x = c := fun hc => h (hc ▸ List.mem_cons_self x xs)
    have hxs : c ∉ xs := fun hc => h (List.mem_cons_of_mem x hc)
    simp only [splitSegsAux, ih hxs, if_neg hx]

theorem splitSegsAux_append (c : Char) :
    ∀ (l t : List Char), c ∉ l →
      splitSegsAux c (l ++ c :: t) = (l, (splitSegsAux c t).1 :: (splitSegsAux c t).2) := by
  intro l
  induction l with
  | nil => intro t _; simp [splitSegsAux]
  | cons x xs ih =>
    intro t h
    have hx : ¬ x = c := fun hc => h (hc ▸ List.mem_cons_self x xs)
    have hxs : c ∉ xs := fun hc => h (List.mem_cons_of_mem x hc)
    simp only [List.cons_append, splitSegsAux, if_neg hx, List.append_eq]
    rw [ih t hxs]

theorem splitSegs_joinSegs (c : Char) :
    ∀ L : List (List Char), L ≠ [] → (∀ l ∈ L, c ∉ l) →
      splitSegs c (joinSegs c L) = L := by
  intro L
  induction L with
  | nil => intro h _; exact absurd rfl h
  | cons l rest ih =>
    intro _ hmem
    cases rest with
    | nil =>
      have hl : c ∉ l := hmem l (List.mem_cons_self l [])
      simp [joinSegs, splitSegs, splitSegsAux_of_not_mem c l hl]
    | cons l2 rest2 =>
      have hl : c ∉ l := hmem l (List.mem_cons_self _ _)
      have hjoin : joinSegs c (l :: l2 :: rest2) = l ++ c :: joinSegs c (l2 :: rest2) := rfl
      rw [hjoin]
      have hrec := ih (by simp) (fun x hx => hmem x (List.mem_cons_of_mem l hx))
      simp only [splitSegs, splitSegsAux_append c l _ hl]
      simp only [splitSegs] at hrec
      rw [List.cons.injEq]
      exact ⟨rfl, hrec⟩

theorem joinSegs_append (c : Char) :
    ∀ (a b : List (List Char)), a ≠ [] → b ≠ [] →
      joinSegs c (a ++ b) = joinSegs c a ++ c :: joinSegs c b := by
  intro a
  induction a with
  | nil => intro b h _; exact absurd rfl h
  | cons l rest ih =>
    intro b _ hb
    cases rest with
    | nil =>
      cases b with
      | nil => exact absurd rfl hb
      | cons b1 bs => simp [joinSegs]
    | cons l2 rest2 =>
      have h1 : joinSegs c ((l :: l2 :: rest2) ++ b) = l ++ c :: joinSegs c ((l2 :: rest2) ++ b) := by
        simp only [List.cons_append]
        rfl
      rw [h1, ih b (by simp) hb]
      simp [joinSegs]

theorem joinSegs_ne_nil (c : Char) :
    ∀ ws : List (List Char), ws ≠ [] → (∀ w ∈ ws, w ≠ []) → joinSegs c ws ≠ [] := by
  intro ws
  induction ws with
  | nil => intro h _; exact absurd rfl h
  | cons w rest _ =>
    intro _ hmem
    cases rest with
    | nil =>
      simpa [joinSegs] using hmem w (List.mem_cons_self _ _)
    | cons w2 rest2 =>
      have h1 : joinSegs c (w :: w2 :: rest2) = w ++ c :: joinSegs c (w2 :: rest2) := rfl
      rw [h1]
      simp

theorem not_mem_joinSegs (c x : Char) (hx : x ≠ c) :
    ∀ ws : List (List Char), (∀ w ∈ ws, x ∉ w) → x ∉ joinSegs c ws := by
  intro ws
  induction ws with
  | nil => intro _; simp [joinSegs]
  | cons w rest ih =>
    intro hmem
    cases rest with
    | nil => simpa [joinSegs] using hmem w (List.mem_cons_self _ _)
    | cons w2 rest2 =>
      have h1 : joinSegs c (w :: w2 :: rest2) = w ++ c :: joinSegs c (w2 :: rest2) := rfl
      rw [h1]
      intro hmem2
      rcases List.mem_append.1 hmem2 with h | h
      · exact hmem w (List.mem_cons_self _ _) h
      · rcases List.mem_cons.1 h with rfl | h
        · exact hx rfl
        · exact ih (fun w' hw' => hmem w' (List.mem_cons_of_mem _ hw')) h

theorem wordsOf_joinSegs (ws : List (List Char)) (hne : ws ≠ [])
    (hmem : ∀ w ∈ ws, w ≠ [] ∧ ' ' ∉ w) :
    wordsOf (joinSegs ' ' ws) = ws := by
  simp only [wordsOf]
  rw [splitSegs_joinSegs ' ' ws hne (fun w hw => (hmem w hw).2)]
  rw [List.filter_eq_self]
  intro w hw
  simpa using (hmem w hw).1

theorem measureW_append (cw : Char → Rat) (a b : List Char) :
    measureW cw (a ++ b) = measureW cw a + measureW cw b := by
  simp [measureW]

theorem measureW_nonneg (cw : Char → Rat) (hcw : ∀ c, 0 ≤ cw c) (s : List Char) :
    0 ≤ measureW cw s := by
  refine List.sum_nonneg ?_
  intro x hx
  obtain ⟨c, _, rfl⟩ := List.mem_map.1 hx
  exact hcw c

theorem measureW_join_prefix (cw : Char → Rat) (hcw : ∀ c, 0 ≤ cw c)
    (a ws : List (List Char)) (ha : a ≠ []) :
    measureW cw (joinSegs ' ' a) ≤ measureW cw (joinSegs ' ' (a ++ ws)) := by
  cases ws with
  | nil => simp
  | cons w rest =>
    rw [joinSegs_append ' ' a (w :: rest) ha (by simp)]
    rw [measureW_append]
    have h1 : 0 ≤ measureW cw (' ' :: joinSegs ' ' (w :: rest)) :=
      measureW_nonneg cw hcw _
    linarith

theorem wrapLoop_fits (cw : Char → Rat) (max_width : Rat) (hcw : ∀ c, 0 ≤ cw c) :
    ∀ (ws cs : List (List Char)), cs ≠ [] → (∀ w ∈ cs, w ≠ []) → (∀ w ∈ ws, w ≠ []) →
      measureW cw (joinSegs ' ' (cs ++ ws)) ≤ max_width →
      wrapLoop cw max_width (joinSegs ' ' cs) ws = [joinSegs ' ' (cs ++ ws)] := by
  intro ws
  induction ws with
  | nil =>
    intro cs hcs hwords _ _
    have hne : joinSegs ' ' cs ≠ [] := joinSegs_ne_nil ' ' cs hcs hwords
    simp [wrapLoop, hne]
  | cons w rest ih =>
    intro cs hcs hwords hws hfit
    have hne : joinSegs ' ' cs ≠ [] := joinSegs_ne_nil ' ' cs hcs hwords
    have htest : joinSegs ' ' cs ++ ' ' :: w = joinSegs ' ' (cs ++ [w]) := by
      rw [joinSegs_append ' ' cs [w] hcs (by simp)]
      rfl
    have hprefix : measureW cw (joinSegs ' ' (cs ++ [w])) ≤ max_width := by
      have h1 : measureW cw (joinSegs ' ' (cs ++ [w])) ≤
          measureW cw (joinSegs ' ' ((cs ++ [w]) ++ rest)) :=
        measureW_join_prefix cw hcw (cs ++ [w]) rest (by simp)
      have h2 : (cs ++ [w]) ++ rest = cs ++ w :: rest := by simp
      rw [h2] at h1
      exact h1.trans hfit
    simp only [wrapLoop, if_neg hne]
    rw [htest, if_pos hprefix]
    have hcsw : ∀ x ∈ cs ++ [w], x ≠ [] := by
      intro x hx
      rcases List.mem_append.1 hx with hx | hx
      · exact hwords x hx
      · simp only [List.mem_singleton] at hx
        subst hx
        exact hws x (List.mem_cons_self _ _)
    have hrestw : ∀ x ∈ rest, x ≠ [] :=
      fun x hx => hws x (List.mem_cons_of_mem _ hx)
    have hfit2 : measureW cw (joinSegs ' ' ((cs ++ [w]) ++ rest)) ≤ max_width := by
      have h2 : (cs ++ [w]) ++ rest = cs ++ w :: rest := by simp
      rw [h2]
      exact hfit
    rw [ih (cs ++ [w]) (by simp) hcsw hrestw hfit2]
    congr 1
    simp

theorem wrapLoop_nil_cons (cw : Char → Rat) (max_width : Rat) (w : List Char)
    (ws : List (List Char)) :
    wrapLoop cw max_width [] (w :: ws) = wrapLoop cw max_width w ws := by
  simp [wrapLoop]

theorem wrapLoop_nil_fits (cw : Char → Rat) (max_width : Rat) (hcw : ∀ c, 0 ≤ cw c)
    (ws : List (List Char)) (hne : ws ≠ []) (hwords : ∀ w ∈ ws, w ≠ [])
    (hfit : measureW cw (joinSegs ' ' ws) ≤ max_width) :
    wrapLoop cw max_width [] ws = [joinSegs ' ' ws] := by
  cases ws with
  | nil => exact absurd rfl hne
  | cons w rest =>
    have hw : w ≠ [] := hwords w (List.mem_cons_self _ _)
    rw [wrapLoop_nil_cons]
    cases rest with
    | nil => simp [wrapLoop, hw, joinSegs]
    | cons w2 rest2 =>
      have h2 : w = joinSegs ' ' [w] := rfl
      rw [h2]
      rw [wrapLoop_fits cw max_width hcw (w2 :: rest2) [w] (by simp)
        (by intro x hx; simp at hx; subst hx; exact hw)
        (fun x hx => hwords x (List.mem_cons_of_mem _ hx))
        (by simpa using hfit)]
      simp only [List.singleton_append]
      rfl

theorem wrapLoop_single_word (cw : Char → Rat) (max_width : Rat)
    (w : List Char) (hw : w ≠ []) :
    wrapLoop cw max_width [] [w] = [w] := by
  rw [wrapLoop_nil_cons]
  simp [wrapLoop, hw]

theorem rewrap_line (cw : Char → Rat) (max_width : Rat) (hcw : ∀ c, 0 ≤ cw c)
    (l : List Char) (hl : GoodLine cw max_width l) :
    (if l = [] then [([] : List Char)] else wrapLoop cw max_width [] (wordsOf l)) = [l] := by
  rcases hl with rfl | ⟨ws, hne, hwords, rfl, hfit⟩
  · simp
  · have hjne : joinSegs ' ' ws ≠ [] :=
      joinSegs_ne_nil ' ' ws hne (fun w hw => (hwords w hw).1)
    rw [if_neg hjne]
    rw [wordsOf_joinSegs ws hne (fun w hw => ⟨(hwords w hw).1, (hwords w hw).2.1⟩)]
    rcases hfit with hfit | ⟨w, rfl⟩
    · exact wrapLoop_nil_fits cw max_width hcw ws hne
        (fun w hw => (hwords w hw).1) hfit
    · exact wrapLoop_single_word cw max_width w ((hwords w (List.mem_cons_self _ _)).1)

theorem goodLine_single_word (cw : Char → Rat) (max_width : Rat) (w : List Char)
    (hw : w ≠ [] ∧ ' ' ∉ w ∧ '\n' ∉ w) : GoodLine cw max_width w :=
  Or.inr ⟨[w], by simp, by simpa using hw, rfl, Or.inr ⟨w, rfl⟩⟩

theorem wrapLoop_goodLines (cw : Char → Rat) (max_width : Rat) :
    ∀ (ws : List (List Char)) (cur : List Char),
      (∀ w ∈ ws, w ≠ [] ∧ ' ' ∉ w ∧ '\n' ∉ w) →
      GoodLine cw max_width cur →
      ∀ l ∈ wrapLoop cw max_width cur ws, GoodLine cw max_width l := by
  intro ws
  induction ws with
  | nil =>
    intro cur hws hcur l hl
    simp only [wrapLoop] at hl
    split_ifs at hl with hc
    · simp at hl
    · simp only [List.mem_singleton] at hl
      subst hl
      exact hcur
  | cons w rest ih =>
    intro cur hws hcur l hl
    have hw := hws w (List.mem_cons_self _ _)
    have hrest : ∀ x ∈ rest, x ≠ [] ∧ ' ' ∉ x ∧ '\n' ∉ x :=
      fun x hx => hws x (List.mem_cons_of_mem _ hx)
    by_cases hc : cur = []
    · subst hc
      rw [wrapLoop_nil_cons] at hl
      exact ih w hrest (goodLine_single_word cw max_width w hw) l hl
    · rcases hcur with rfl | ⟨cs, hcs, hcsw, rfl, hfitC⟩
      · exact absurd rfl hc
      · simp only [wrapLoop, if_neg hc] at hl
        split_ifs at hl with hm
        · have hgood : GoodLine cw max_width (joinSegs ' ' cs ++ ' ' :: w) := by
            refine Or.inr ⟨cs ++ [w], by simp, ?_, ?_, Or.inl hm⟩
            · intro x hx
              rcases List.mem_append.1 hx with hx | hx
              · exact hcsw x hx
              · simp only [List.mem_singleton] at hx
                subst hx
                exact hw
            · rw [joinSegs_append ' ' cs [w] hcs (by simp)]
              rfl
          exact ih _ hrest hgood l hl
        · rcases List.mem_cons.1 hl with rfl | hl
          · exact Or.inr ⟨cs, hcs, hcsw, rfl, hfitC⟩
          · exact ih w hrest (goodLine_single_word cw max_width w hw) l hl

theorem wrapLines_goodLines (cw : Char → Rat) (max_width : Rat) (text : List Char) :
    ∀ l ∈ wrapLines cw max_width text, GoodLine cw max_width l := by
  intro l hl
  simp only [wrapLines, List.mem_flatten, List.mem_map] at hl
  obtain ⟨ll, ⟨p, hp, rfl⟩, hl⟩ := hl
  by_cases hpe : p = []
  · rw [if_pos hpe] at hl
    simp only [List.mem_singleton] at hl
    subst hl
    exact Or.inl rfl
  · rw [if_neg hpe] at hl
    refine wrapLoop_goodLines cw max_width (wordsOf p) [] ?_ (Or.inl rfl) l hl
    intro w hw
    simp only [wordsOf, List.mem_filter, decide_eq_true_eq] at hw
    obtain ⟨hseg, hne⟩ := hw
    refine ⟨hne, splitSegs_not_mem ' ' p w hseg, ?_⟩
    intro hnl
    have hx : '\n' ∈ p := mem_of_mem_splitSegs ' ' p w hseg '\n' hnl
    exact splitSegs_not_mem '\n' text p hp hx

theorem flatten_map_singleton {α : Type} (l : List α) :
    (l.map (fun x => [x])).flatten = l := by
  induction l with
  | nil => rfl
  | cons a b ih => simp [ih]

theorem wrapLines_joinSegs (cw : Char → Rat) (max_width : Rat) (hcw : ∀ c, 0 ≤ cw c)
    (L : List (List Char)) (hne : L ≠ [])
    (hgood : ∀ l ∈ L, GoodLine cw max_width l) :
    wrapLines cw max_width (joinSegs '\n' L) = L := by
  have hnl : ∀ l ∈ L, '\n' ∉ l := by
    intro l hl
    rcases hgood l hl with rfl | ⟨ws, _, hws, rfl, _⟩
    · simp
    · exact not_mem_joinSegs ' ' '\n' (by decide) ws (fun w hw => (hws w hw).2.2)
  simp only [wrapLines]
  rw [splitSegs_joinSegs '\n' L hne hnl]
  have hcongr : ∀ l ∈ L,
      (if l = [] then [([] : List Char)] else simpleSplitW cw max_width l) = [l] := by
    intro l hl
    exact rewrap_line cw max_width hcw l (hgood l hl)
  rw [List.map_congr_left hcongr]
  exact flatten_map_singleton L

theorem elemWrapLines_set_height (cw : FontSpec → Char → Rat) (e : BaseElement) (h : Rat) :
    elemWrapLines cw { e with height := h } = elemWrapLines cw e := rfl

theorem elemWrapLines_set_text (cw : FontSpec → Char → Rat) (e : BaseElement)
    (t : List Char) (hgt : Rat) :
    elemWrapLines cw { e with props := e.props.set "text" (.str t), height := hgt } =
      wrapLines (cw (fontSpecOf e)) (mm_to_pt e.width) t := by
  have hfs : fontSpecOf { e with props := e.props.set "text" (.str t), height := hgt } =
      fontSpecOf e := by
    simp only [fontSpecOf, Props.getStr, Props.getBool, Props.getNum]
    rw [Props.get?_set_ne e.props "text" "font_family" (PropValue.str t) (by decide),
        Props.get?_set_ne e.props "text" "font_bold" (PropValue.str t) (by decide),
        Props.get?_set_ne e.props "text" "font_italic" (PropValue.str t) (by decide),
        Props.get?_set_ne e.props "text" "font_size" (PropValue.str t) (by decide)]
  simp only [elemWrapLines, hfs]
  congr 1
  simp [Props.getStr, Props.get?_set_self]

/-- C4: splitting a text box preserves the wrapped content exactly — the
line sequence of the first part concatenated with the line sequence of
the remaining part is the original wrapped line sequence, with no line
duplicated or dropped, for every text, width, measurement function with
nonnegative character widths, and available height (a part that does not
exist contributes no lines; when nothing fits, the remaining part is the
whole box). -/
theorem textbox_split_preserves_lines (cw : FontSpec → Char → Rat)
    (elem : BaseElement) (avail : Rat)
    (hcw : ∀ fs c, 0 ≤ cw fs c)
    (hfs : 0 < elem.props.getNum "font_size" 12) :
    optLines cw (splitTextbox cw elem avail).1 ++ optLines cw (splitTextbox cw elem avail).2 =
      elemWrapLines cw elem := by
  have hlh : 0 < lineHeightMM (elem.props.getNum "font_size" 12) := by
    unfold lineHeightMM
    positivity
  by_cases hguard : elem.props.getStr "text" [] = [] ∨
      avail < lineHeightMM (elem.props.getNum "font_size" 12)
  · simp only [splitTextbox]
    rw [if_pos hguard]
    simp [optLines]
  · have htext : ¬ elem.props.getStr "text" [] = [] := fun h => hguard (Or.inl h)
    have hge : lineHeightMM (elem.props.getNum "font_size" 12) ≤ avail :=
      not_lt.1 (fun h => hguard (Or.inr h))
    have hq : 0 ≤ avail / lineHeightMM (elem.props.getNum "font_size" 12) :=
      div_nonneg (hlh.le.trans hge) hlh.le
    have hk1 : 1 ≤ Int.floor (avail / lineHeightMM (elem.props.getNum "font_size" 12)) := by
      rw [Int.le_floor]
      rw [le_div_iff₀ hlh]
      simpa using hge
    simp only [splitTextbox]
    rw [if_neg hguard, pyInt_of_nonneg _ hq]
    by_cases hfit : ((elemWrapLines cw elem).length : Int) ≤
        Int.floor (avail / lineHeightMM (elem.props.getNum "font_size" 12))
    · rw [if_pos hfit]
      simp only [optLines, elemWrapLines_set_height]
      simp
    · rw [if_neg hfit]
      have hk0 : 0 ≤ Int.floor (avail / lineHeightMM (elem.props.getNum "font_size" 12)) := by
        omega
      have hklen : Int.floor (avail / lineHeightMM (elem.props.getNum "font_size" 12)) <
          ((elemWrapLines cw elem).length : Int) := not_le.1 hfit
      have hkn1 : 1 ≤ (Int.floor (avail / lineHeightMM (elem.props.getNum "font_size" 12))).toNat := by
        omega
      have hknlen : (Int.floor (avail / lineHeightMM (elem.props.getNum "font_size" 12))).toNat <
          (elemWrapLines cw elem).length := by
        omega
      simp only [pySliceTo, pySliceFrom, if_pos hk0]
      simp only [optLines, elemWrapLines_set_text]
      have hlines : ∀ l ∈ elemWrapLines cw elem,
          GoodLine (cw (fontSpecOf elem)) (mm_to_pt elem.width) l := by
        intro l hl
        exact wrapLines_goodLines (cw (fontSpecOf elem)) (mm_to_pt elem.width)
          (elem.props.getStr "text" []) l hl
      rw [wrapLines_joinSegs (cw (fontSpecOf elem)) (mm_to_pt elem.width)
          (fun c => hcw (fontSpecOf elem) c) _
          (by
            rw [Ne, List.take_eq_nil_iff]
            rintro (hc | hc)
            · omega
            · rw [hc] at hknlen
              simp at hknlen)
          (fun l hl => hlines l (List.mem_of_mem_take hl))]
      rw [wrapLines_joinSegs (cw (fontSpecOf elem)) (mm_to_pt elem.width)
          (fun c => hcw (fontSpecOf elem) c) _
          (by
            rw [Ne, List.drop_eq_nil_iff]
            omega)
          (fun l hl => hlines l (List.mem_of_mem_drop hl))]
      exact List.take_append_drop _ _

/-- C4 witness: text `"aa\ncc"` (a hard line break) at a width of 5pt
with unit glyph widths wraps to the two lines `"aa"` / `"cc"`; against a
6mm available height the two parts' lines rebuild exactly that sequence. -/
theorem textbox_split_preserves_lines_witness :
    elemWrapLines cwOne (sampleTextbox "aa\ncc".toList (5 / 2.83465) 20) =
      ["aa".toList, "cc".toList] ∧
    optLines cwOne
        (splitTextbox cwOne (sampleTextbox "aa\ncc".toList (5 / 2.83465) 20) 6).1 ++
      optLines cwOne
        (splitTextbox cwOne (sampleTextbox "aa\ncc".toList (5 / 2.83465) 20) 6).2 =
      elemWrapLines cwOne (sampleTextbox "aa\ncc".toList (5 / 2.83465) 20) := by
  constructor
  · simp only [elemWrapLines, wrapLines, sampleTextbox, fontSpecOf, Props.getStr, Props.getNum,
      Props.getBool, Props.get?, mm_to_pt, wordsOf, simpleSplitW, measureW, cwOne]
    norm_num [splitSegs, splitSegsAux, wrapLoop, joinSegs, measureW,
      show ('a' : Char) ≠ '\n' from by decide, show ('c' : Char) ≠ '\n' from by decide,
      show ('a' : Char) ≠ ' ' from by decide, show ('c' : Char) ≠ ' ' from by decide]
    simp
  · exact textbox_split_preserves_lines cwOne _ 6
      (fun _ _ => by norm_num [cwOne])
      (by
        rw [show (sampleTextbox "aa\ncc".toList (5 / 2.83465) 20).props.getNum "font_size" 12 = 12
          from rfl]
        norm_num)

theorem tableLoop_empty_none :
    ∀ (fuel : Nat) (st : PagState),
      splitLoop splitTable 100 20 fuel st
        (sampleTable 0 200 [("row_height", PropValue.num 10)]) = none := by
  intro fuel
  induction fuel with
  | zero => intro st; rfl
  | succ n ih =>
    intro st
    have hsplit : splitTable (sampleTable 0 200 [("row_height", PropValue.num 10)])
        (100 - st.y) = (none, some (sampleTable 0 200 [("row_height", PropValue.num 10)])) := by
      simp only [splitTable]
      rw [if_pos (Or.inl (show (sampleTable 0 200 [("row_height", PropValue.num 10)]).props.getRows
        "data" = [] from rfl))]
    simp only [splitLoop, hsplit]
    exact ih _

/-- C10 counterexample: the claim's preconditions hold (derived row
height 10mm is positive and at most pageHeight − topMargin = 80mm) for a
table whose bound data matrix is empty but whose height overflows the
page; `_split_table` then returns the whole element as the remaining part
forever and the `while remaining_elem` loop of `_paginate_elements` never
terminates — no amount of fuel makes the embedded loop return. -/
theorem paginate_termination_counterexample :
    (sampleTable 0 200 [("row_height", PropValue.num 10)]).props.getNum "row_height" 20 = 10 ∧
    (0 : Rat) < 10 ∧ (10 : Rat) ≤ 100 - 20 ∧
    ¬ ∃ fuel : Nat,
        paginateElements cwOne fuel [sampleTable 0 200 [("row_height", PropValue.num 10)]]
          100 20 ≠ none := by
  refine ⟨rfl, by norm_num, by norm_num, ?_⟩
  rintro ⟨fuel, hne⟩
  apply hne
  have hrec : recomputeTextboxHeight cwOne (sampleTable 0 200 [("row_height", PropValue.num 10)]) =
      sampleTable 0 200 [("row_height", PropValue.num 10)] := by
    simp only [recomputeTextboxHeight]
    rw [if_neg (by
      rintro ⟨hc, -⟩
      exact absurd hc (by decide))]
  simp only [paginateElements, paginateLoop, processElem, hrec]
  rw [if_neg (by
    show ¬ ((sampleTable 0 200 [("row_height", PropValue.num 10)]).height ≤ 100 - (0:Rat))
    rw [show (sampleTable 0 200 [("row_height", PropValue.num 10)]).height = 200 from rfl]
    norm_num)]
  rw [if_pos (show (sampleTable 0 200 [("row_height", PropValue.num 10)]).type =
    ElementType.table from rfl)]
  rw [tableLoop_empty_none fuel]

theorem joinSegs_ne_nil_of_getLast (c : Char) (L : List (List Char)) (hne : L ≠ [])
    (hlast : L.getLast? ≠ some []) : joinSegs c L ≠ [] := by
  match L with
  | [] => exact absurd rfl hne
  | [l] =>
    have h : l ≠ [] := by
      intro hc
      exact hlast (by rw [hc]; rfl)
    simpa [joinSegs] using h
  | l :: l2 :: rest =>
    have h1 : joinSegs c (l :: l2 :: rest) = l ++ c :: joinSegs c (l2 :: rest) := rfl
    rw [h1]
    simp

theorem getRows_set_rows (p : Props) (k : String) (r : List (List (List Char))) :
    Props.getRows (p.set k (.rows r)) k = r := by
  simp [Props.getRows, Props.get?_set_self]

theorem getNum_set_other (p : Props) (k k' : String) (v : PropValue) (d : Rat) (h : k' ≠ k) :
    Props.getNum (p.set k v) k' d = p.getNum k' d := by
  simp only [Props.getNum]
  rw [Props.get?_set_ne _ _ _ _ h]

theorem getStr_set_str (p : Props) (k : String) (t : List Char) (d : List Char) :
    Props.getStr (p.set k (.str t)) k d = t := by
  simp [Props.getStr, Props.get?_set_self]

theorem tableLoop_good (pageH tm : Rat) :
    ∀ (n : Nat) (rem : BaseElement) (st : PagState) (fuel : Nat),
      0 < rem.props.getNum "row_height" 20 →
      rem.props.getNum "row_height" 20 ≤ pageH - tm →
      rem.props.getRows "data" ≠ [] →
      (rem.props.getRows "data").length ≤ n →
      2 * n + 1 ≤ fuel →
      rem.props.getNum "row_height" 20 ≤ pageH - st.y →
      splitLoop splitTable pageH tm fuel st rem ≠ none := by
  intro n
  induction n with
  | zero =>
    intro rem st fuel h1 h2 h3 hlen hfuel hst
    exact absurd (List.length_eq_zero.1 (Nat.le_zero.1 hlen)) h3
  | succ n ih =>
    intro rem st fuel h1 h2 h3 hlen hfuel hst
    cases fuel with
    | zero => omega
    | succ f =>
      have hguard : ¬(rem.props.getRows "data" = [] ∨
          pageH - st.y < rem.props.getNum "row_height" 20) := by
        rintro (hc | hc)
        · exact h3 hc
        · exact absurd hst (not_le.2 hc)
      have hq : 0 ≤ (pageH - st.y) / rem.props.getNum "row_height" 20 :=
        div_nonneg (h1.le.trans hst) h1.le
      have hk1 : 1 ≤ Int.floor ((pageH - st.y) / rem.props.getNum "row_height" 20) := by
        rw [Int.le_floor]
        rw [le_div_iff₀ h1]
        simpa using hst
      by_cases hfit : ((rem.props.getRows "data").length : Int) ≤
          Int.floor ((pageH - st.y) / rem.props.getNum "row_height" 20)
      · simp only [splitLoop, splitTable]
        rw [if_neg hguard, pyInt_of_nonneg _ hq, if_pos hfit]
        simp
      · simp only [splitLoop, splitTable]
        rw [if_neg hguard, pyInt_of_nonneg _ hq, if_neg hfit]
        simp only [pySliceTo, pySliceFrom,
          if_pos (show (0:Int) ≤ Int.floor ((pageH - st.y) / rem.props.getNum "row_height" 20)
            by omega)]
        have hklen : (Int.floor ((pageH - st.y) / rem.props.getNum "row_height" 20)).toNat <
            (rem.props.getRows "data").length := by
          have := not_le.1 hfit
          omega
        have hkn1 : 1 ≤ (Int.floor ((pageH - st.y) / rem.props.getNum "row_height" 20)).toNat := by
          omega
        apply ih
        · rw [getNum_set_other _ _ _ _ _ (by decide)]
          exact h1
        · rw [getNum_set_other _ _ _ _ _ (by decide)]
          exact h2
        · rw [getRows_set_rows]
          rw [Ne, List.drop_eq_nil_iff]
          omega
        · rw [getRows_set_rows, List.length_drop]
          omega
        · omega
        · rw [getNum_set_other _ _ _ _ _ (by decide)]
          exact h2

theorem tableLoop_any (pageH tm : Rat) (n : Nat) (rem : BaseElement) (st : PagState)
    (fuel : Nat)
    (h1 : 0 < rem.props.getNum "row_height" 20)
    (h2 : rem.props.getNum "row_height" 20 ≤ pageH - tm)
    (h3 : rem.props.getRows "data" ≠ [])
    (hlen : (rem.props.getRows "data").length ≤ n)
    (hfuel : 2 * n + 2 ≤ fuel) :
    splitLoop splitTable pageH tm fuel st rem ≠ none := by
  cases fuel with
  | zero => omega
  | succ f =>
    by_cases hav : rem.props.getNum "row_height" 20 ≤ pageH - st.y
    · exact tableLoop_good pageH tm n rem st (f + 1) h1 h2 h3 hlen (by omega) hav
    · have hguard : rem.props.getRows "data" = [] ∨
          pageH - st.y < rem.props.getNum "row_height" 20 := Or.inr (not_le.1 hav)
      simp only [splitLoop, splitTable]
      rw [if_pos hguard]
      simp only []
      exact tableLoop_good pageH tm n rem (newPage st tm) f h1 h2 h3 hlen (by omega) h2

theorem textboxLoop_good (cw : FontSpec → Char → Rat) (pageH tm : Rat)
    (hcw : ∀ fs c, 0 ≤ cw fs c) :
    ∀ (n : Nat) (rem : BaseElement) (st : PagState) (fuel : Nat),
      0 < rem.props.getNum "font_size" 12 →
      lineHeightMM (rem.props.getNum "font_size" 12) ≤ pageH - tm →
      rem.props.getStr "text" [] ≠ [] →
      (elemWrapLines cw rem).getLast? ≠ some [] →
      (elemWrapLines cw rem).length ≤ n →
      2 * n + 1 ≤ fuel →
      lineHeightMM (rem.props.getNum "font_size" 12) ≤ pageH - st.y →
      splitLoop (splitTextbox cw) pageH tm fuel st rem ≠ none := by
  intro n
  induction n with
  | zero =>
    intro rem st fuel h1 h2 h3 h4 hlen hfuel hst
    cases fuel with
    | zero => omega
    | succ f =>
      have hlh : 0 < lineHeightMM (rem.props.getNum "font_size" 12) := by
        unfold lineHeightMM
        positivity
      have hguard : ¬(rem.props.getStr "text" [] = [] ∨
          pageH - st.y < lineHeightMM (rem.props.getNum "font_size" 12)) := by
        rintro (hc | hc)
        · exact h3 hc
        · exact absurd hst (not_le.2 hc)
      have hq : 0 ≤ (pageH - st.y) / lineHeightMM (rem.props.getNum "font_size" 12) :=
        div_nonneg (hlh.le.trans hst) hlh.le
      have hfit : ((elemWrapLines cw rem).length : Int) ≤
          Int.floor ((pageH - st.y) / lineHeightMM (rem.props.getNum "font_size" 12)) := by
        have hl0 : (elemWrapLines cw rem).length = 0 := Nat.le_zero.1 hlen
        rw [hl0]
        exact_mod_cast Int.floor_nonneg.2 hq
      simp only [splitLoop, splitTextbox]
      rw [if_neg hguard, pyInt_of_nonneg _ hq, if_pos hfit]
      simp
  | succ n ih =>
    intro rem st fuel h1 h2 h3 h4 hlen hfuel hst
    cases fuel with
    | zero => omega
    | succ f =>
      have hlh : 0 < lineHeightMM (rem.props.getNum "font_size" 12) := by
        unfold lineHeightMM
        positivity
      have hguard : ¬(rem.props.getStr "text" [] = [] ∨
          pageH - st.y < lineHeightMM (rem.props.getNum "font_size" 12)) := by
        rintro (hc | hc)
        · exact h3 hc
        · exact absurd hst (not_le.2 hc)
      have hq : 0 ≤ (pageH - st.y) / lineHeightMM (rem.props.getNum "font_size" 12) :=
        div_nonneg (hlh.le.trans hst) hlh.le
      have hk1 : 1 ≤ Int.floor ((pageH - st.y) / lineHeightMM (rem.props.getNum "font_size" 12)) := by
        rw [Int.le_floor]
        rw [le_div_iff₀ hlh]
        simpa using hst
      by_cases hfit : ((elemWrapLines cw rem).length : Int) ≤
          Int.floor ((pageH - st.y) / lineHeightMM (rem.props.getNum "font_size" 12))
      · simp only [splitLoop, splitTextbox]
        rw [if_neg hguard, pyInt_of_nonneg _ hq, if_pos hfit]
        simp
      · have hklen : (Int.floor ((pageH - st.y) /
            lineHeightMM (rem.props.getNum "font_size" 12))).toNat <
            (elemWrapLines cw rem).length := by
          have := not_le.1 hfit
          omega
        have hkn1 : 1 ≤ (Int.floor ((pageH - st.y) /
            lineHeightMM (rem.props.getNum "font_size" 12))).toNat := by
          omega
        have hdropne : List.drop (Int.floor ((pageH - st.y) /
            lineHeightMM (rem.props.getNum "font_size" 12))).toNat
            (elemWrapLines cw rem) ≠ [] := by
          rw [Ne, List.drop_eq_nil_iff]
          omega
        have hdlast : (List.drop (Int.floor ((pageH - st.y) /
            lineHeightMM (rem.props.getNum "font_size" 12))).toNat
            (elemWrapLines cw rem)).getLast? ≠ some [] := by
          rw [List.getLast?_drop, if_neg (by omega)]
          exact h4
        simp only [splitLoop, splitTextbox]
        rw [if_neg hguard, pyInt_of_nonneg _ hq, if_neg hfit]
        simp only [pySliceTo, pySliceFrom,
          if_pos (show (0:Int) ≤ Int.floor ((pageH - st.y) /
            lineHeightMM (rem.props.getNum "font_size" 12)) by omega)]
        have hLrem : elemWrapLines cw
            { rem with
                props := rem.props.set "text" (.str (joinSegs '\n'
                  (List.drop (Int.floor ((pageH - st.y) /
                    lineHeightMM (rem.props.getNum "font_size" 12))).toNat
                    (elemWrapLines cw rem)))),
                height := ((List.drop (Int.floor ((pageH - st.y) /
                    lineHeightMM (rem.props.getNum "font_size" 12))).toNat
                    (elemWrapLines cw rem)).length : Rat) *
                  lineHeightMM (rem.props.getNum "font_size" 12) } =
            List.drop (Int.floor ((pageH - st.y) /
              lineHeightMM (rem.props.getNum "font_size" 12))).toNat
              (elemWrapLines cw rem) := by
          rw [elemWrapLines_set_text]
          exact wrapLines_joinSegs (cw (fontSpecOf rem)) (mm_to_pt rem.width)
            (fun c => hcw (fontSpecOf rem) c) _ hdropne
            (fun l hl => wrapLines_goodLines (cw (fontSpecOf rem)) (mm_to_pt rem.width)
              (rem.props.getStr "text" []) l (List.mem_of_mem_drop hl))
        apply ih
        · rw [getNum_set_other _ _ _ _ _ (by decide)]
          exact h1
        · rw [getNum_set_other _ _ _ _ _ (by decide)]
          exact h2
        · rw [getStr_set_str]
          exact joinSegs_ne_nil_of_getLast '\n' _ hdropne hdlast
        · rw [hLrem]
          exact hdlast
        · rw [hLrem, List.length_drop]
          omega
        · omega
        · rw [getNum_set_other _ _ _ _ _ (by decide)]
          exact h2

theorem textboxLoop_any (cw : FontSpec → Char → Rat) (pageH tm : Rat)
    (hcw : ∀ fs c, 0 ≤ cw fs c) (n : Nat) (rem : BaseElement) (st : PagState) (fuel : Nat)
    (h1 : 0 < rem.props.getNum "font_size" 12)
    (h2 : lineHeightMM (rem.props.getNum "font_size" 12) ≤ pageH - tm)
    (h3 : rem.props.getStr "text" [] ≠ [])
    (h4 : (elemWrapLines cw rem).getLast? ≠ some [])
    (hlen : (elemWrapLines cw rem).length ≤ n)
    (hfuel : 2 * n + 2 ≤ fuel) :
    splitLoop (splitTextbox cw) pageH tm fuel st rem ≠ none := by
  cases fuel with
  | zero => omega
  | succ f =>
    by_cases hav : lineHeightMM (rem.props.getNum "font_size" 12) ≤ pageH - st.y
    · exact textboxLoop_good cw pageH tm hcw n rem st (f + 1) h1 h2 h3 h4 hlen (by omega) hav
    · have hguard : rem.props.getStr "text" [] = [] ∨
          pageH - st.y < lineHeightMM (rem.props.getNum "font_size" 12) :=
        Or.inr (not_le.1 hav)
      simp only [splitLoop, splitTextbox]
      rw [if_pos hguard]
      simp only []
      exact textboxLoop_good cw pageH tm hcw n rem (newPage st tm) f h1 h2 h3 h4 hlen
        (by omega) h2

theorem recompute_props (cw : FontSpec → Char → Rat) (e : BaseElement) :
    (recomputeTextboxHeight cw e).props = e.props := by
  unfold recomputeTextboxHeight
  split_ifs with h
  · rfl
  · rfl

theorem recompute_type (cw : FontSpec → Char → Rat) (e : BaseElement) :
    (recomputeTextboxHeight cw e).type = e.type := by
  unfold recomputeTextboxHeight
  split_ifs with h
  · rfl
  · rfl

theorem recompute_lines (cw : FontSpec → Char → Rat) (e : BaseElement) :
    elemWrapLines cw (recomputeTextboxHeight cw e) = elemWrapLines cw e := by
  unfold recomputeTextboxHeight
  split_ifs with h
  · exact elemWrapLines_set_height cw e _
  · rfl

theorem processElem_ne_none (cw : FontSpec → Char → Rat) (pageH tm : Rat)
    (hcw : ∀ fs c, 0 ≤ cw fs c) (e : BaseElement) (fuel : Nat) (st : PagState)
    (hok : TermOK cw pageH tm e) (hfuel : elemFuel cw e ≤ fuel) :
    processElem cw pageH tm fuel st e ≠ none := by
  simp only [processElem]
  by_cases hfit : (recomputeTextboxHeight cw e).height ≤ pageH - st.y
  · rw [if_pos hfit]
    simp
  · rw [if_neg hfit]
    by_cases hta : (recomputeTextboxHeight cw e).type = ElementType.table
    · rw [if_pos hta]
      have htae : e.type = ElementType.table := by rwa [recompute_type] at hta
      have hrec : recomputeTextboxHeight cw e = e := by
        unfold recomputeTextboxHeight
        rw [if_neg (by
          rintro ⟨hc, -⟩
          rw [htae] at hc
          exact absurd hc (by decide))]
      rw [hrec]
      obtain ⟨h1, h2, h3⟩ := hok.1 htae
      refine tableLoop_any pageH tm (e.props.getRows "data").length e st fuel h1 h2 h3
        le_rfl ?_
      have := hfuel
      unfold elemFuel at this
      omega
    · rw [if_neg hta]
      by_cases htb : (recomputeTextboxHeight cw e).type = ElementType.text_box
      · rw [if_pos htb]
        have htbe : e.type = ElementType.text_box := by rwa [recompute_type] at htb
        obtain ⟨h1, h2, h3, h4⟩ := hok.2 htbe
        refine textboxLoop_any cw pageH tm hcw (elemWrapLines cw e).length
          (recomputeTextboxHeight cw e) st fuel ?_ ?_ ?_ ?_ ?_ ?_
        · rw [recompute_props]
          exact h1
        · rw [recompute_props]
          exact h2
        · rw [recompute_props]
          exact h3
        · rw [recompute_lines]
          exact h4
        · rw [recompute_lines]
        · have := hfuel
          unfold elemFuel at this
          omega
      · rw [if_neg htb]
        simp

theorem paginateLoop_ne_none (cw : FontSpec → Char → Rat) (pageH tm : Rat)
    (hcw : ∀ fs c, 0 ≤ cw fs c) :
    ∀ (es : List BaseElement) (st : PagState) (fuel : Nat),
      (∀ e ∈ es, TermOK cw pageH tm e) →
      (∀ e ∈ es, elemFuel cw e ≤ fuel) →
      paginateLoop cw pageH tm fuel st es ≠ none := by
  intro es
  induction es with
  | nil =>
    intro st fuel _ _
    simp [paginateLoop]
  | cons e rest ih =>
    intro st fuel hok hfuel
    simp only [paginateLoop]
    cases hp : processElem cw pageH tm fuel st e with
    | none =>
      exact absurd hp (processElem_ne_none cw pageH tm hcw e fuel st
        (hok e (List.mem_cons_self _ _)) (hfuel e (List.mem_cons_self _ _)))
    | some st' =>
      exact ih st' fuel (fun x hx => hok x (List.mem_cons_of_mem _ hx))
        (fun x hx => hfuel x (List.mem_cons_of_mem _ hx))

/-- C10 (amended): pagination terminates for every finite element list
provided that every Table element has a strictly positive derived row
height at most pageHeight − topMargin and at least one data row, and
every TextBox element has a positive font size, a line height at most
pageHeight − topMargin, nonempty text, and a wrapped line sequence not
ending in a blank line (`TermOK`); character widths are nonnegative.
Under these preconditions each full iteration of a split loop strictly
decreases the remaining rows or lines, so explicit fuel of twice the
element's row/line count plus two suffices and the fueled paginator
returns a result.  (The claim's original preconditions alone are not
sufficient: see the counterexample, where an empty-data table satisfies
them and the split loop never progresses.) -/
theorem paginate_terminates (cw : FontSpec → Char → Rat) (pageH tm : Rat)
    (es : List BaseElement)
    (hcw : ∀ fs c, 0 ≤ cw fs c)
    (hok : ∀ e ∈ es, TermOK cw pageH tm e) :
    ∃ fuel : Nat, paginateElements cw fuel es pageH tm ≠ none := by
  refine ⟨(es.map (elemFuel cw)).sum, ?_⟩
  have h := paginateLoop_ne_none cw pageH tm hcw es { closed := [], cur := [], y := 0 }
    ((es.map (elemFuel cw)).sum) hok ?_
  · simp only [paginateElements]
    cases hcase : paginateLoop cw pageH tm ((es.map (elemFuel cw)).sum)
        { closed := [], cur := [], y := 0 } es with
    | none => exact absurd hcase h
    | some st => simp
  · intro e he
    exact List.single_le_sum (fun x _ => Nat.zero_le x) _ (List.mem_map_of_mem _ he)

/-- C10 witness: a three-row table of height 200mm with 10mm rows on a
100mm page with a 20mm top margin satisfies the amended preconditions,
and pagination of it terminates. -/
theorem paginate_terminates_witness :
    ∃ fuel : Nat,
      paginateElements cwOne fuel [sampleTable 3 200 [("row_height", PropValue.num 10)]]
        100 20 ≠ none := by
  refine paginate_terminates cwOne 100 20 _ (fun _ _ => by norm_num [cwOne]) ?_
  intro e he
  rcases List.mem_cons.1 he with rfl | he
  · constructor
    · intro _
      refine ⟨?_, ?_, ?_⟩
      · rw [show (sampleTable 3 200 [("row_height", PropValue.num 10)]).props.getNum
          "row_height" 20 = 10 from rfl]
        norm_num
      · rw [show (sampleTable 3 200 [("row_height", PropValue.num 10)]).props.getNum
          "row_height" 20 = 10 from rfl]
        norm_num
      · rw [show (sampleTable 3 200 [("row_height", PropValue.num 10)]).props.getRows
          "data" = rowsN 3 from rfl]
        simp [rowsN]
    · intro hc
      exact absurd hc (by decide)
  · simp at he
